import Mathlib

/-!
Shallow embedding of `src/Markdown.Extra.js` (Patternslib/pagedown-extra).

Strings are modelled as Lean `String` (a wrapper around `List Char`); most
scanners work on `List Char` and are hand-compiled versions of the specific
JavaScript regex replacements in the source, preserving the engine's
left-to-right, non-rescanning global-replace semantics.  JavaScript `\s` is
modelled by `isSpaceJS` (ASCII whitespace; the unicode space classes play no
role in any claim).
-/

namespace MarkdownExtra

/-- JS `\s` on the ASCII range: space, tab, newline, carriage return,
vertical tab, form feed. -/
def isSpaceJS (c : Char) : Bool :=
  c = ' ' || c = '\t' || c = '\n' || c = '\r' || c = '\x0b' || c = '\x0c'

/-- Drop the longest suffix whose characters satisfy `p`. -/
def dropLastWhile (p : Char → Bool) (l : List Char) : List Char :=
  (l.reverse.dropWhile p).reverse

/-- Function `trim` (Markdown.Extra.js line 18): `str.replace` of the regex
`/^\s+|\s+$/g` with the empty string. -/
def trim (s : String) : String :=
  ⟨dropLastWhile isSpaceJS (s.data.dropWhile isSpaceJS)⟩

/-- Function `rtrim` (line 22): `str.replace` of `/\s+$/g` with the empty
string. -/
def rtrim (s : String) : String :=
  ⟨dropLastWhile isSpaceJS s.data⟩

/-- Split a character list at every newline (like JS `"...".split('\n')`):
the empty list of characters yields one empty field. -/
def splitNlL : List Char → List (List Char)
  | [] => [[]]
  | c :: cs =>
    let r := splitNlL cs
    if c = '\n' then [] :: r
    else
      match r with
      | [] => [[c]]
      | x :: xs => (c :: x) :: xs

/-- Rejoin lines with `'\n'`; left inverse of `splitNlL`. -/
def joinNlL : List (List Char) → List Char
  | [] => []
  | [x] => x
  | x :: xs => x ++ '\n' :: joinNlL xs

/-- Substring occurrence test (used to model regex tests such as `/\n{2,}/`,
which holds exactly when `"\n\n"` occurs). -/
def hasSubL (pat : List Char) : List Char → Bool
  | [] => pat.isEmpty
  | c :: cs => pat.isPrefixOf (c :: cs) || hasSubL pat cs

/-- Index of the first occurrence of `pat` (for the lazy regex bodies, which
stop at the first occurrence of their terminator). -/
def findSub (pat : List Char) : List Char → Option Nat
  | [] => if pat.isEmpty then some 0 else none
  | c :: cs =>
    if pat.isPrefixOf (c :: cs) then some 0
    else (findSub pat cs).map (· + 1)

/-- One-pass global replacement of the two-character pattern `x`,`y` by `rep`,
matching JS `text.replace(/xy/g, rep)` for a fixed two-character pattern:
leftmost match, no rescanning of the replacement. -/
def subst2 (x y : Char) (rep : List Char) : List Char → List Char
  | [] => []
  | [c] => [c]
  | c :: d :: rest =>
    if c = x && d = y then rep ++ subst2 x y rep rest
    else c :: subst2 x y rep (d :: rest)

/-- One-pass global replacement of the single character `x` by `rep`
(JS `code.replace(/x/g, rep)`). -/
def substChar (x : Char) (rep : List Char) : List Char → List Char
  | [] => []
  | c :: cs => (if c = x then rep else [c]) ++ substChar x rep cs

/-- Replacement entity for an escaped pipe. -/
def pipeEnt : List Char := "&#124;".data

/-- Replacement entity for an escaped colon. -/
def colonEnt : List Char := "&#58;".data

/-- First substitution of `processEscapes`: `text.replace` of the escaped pipe with `&#124;`. -/
def subPipe (l : List Char) : List Char := subst2 '\\' '|' pipeEnt l

/-- Second substitution of `processEscapes`: `text.replace` of the escaped colon with `&#58;`. -/
def subColon (l : List Char) : List Char := subst2 '\\' ':' colonEnt l

/-- Function `processEscapes` (lines 73-79): escaped pipe first, then escaped
colon. -/
def processEscapes (s : String) : String := ⟨subColon (subPipe s.data)⟩

/-- The escaped-colon-first composition (for the order-independence claim). -/
def processEscapesRev (s : String) : String := ⟨subPipe (subColon s.data)⟩

/-- Combined one-pass substitution of both escape patterns (specification-side
reference point for order independence). -/
def substBoth : List Char → List Char
  | [] => []
  | [c] => [c]
  | c :: d :: rest =>
    if c = '\\' && d = '|' then pipeEnt ++ substBoth rest
    else if c = '\\' && d = ':' then colonEnt ++ substBoth rest
    else c :: substBoth (d :: rest)

/-- One level of outdenting for a single line: the regex `^(\t|[ ]{1,4})`
removes one tab, or else one to four leading spaces (greedy). -/
def outdentLine (l : List Char) : List Char :=
  match l with
  | '\t' :: r => r
  | ' ' :: r => r.drop (Nat.min 3 (r.takeWhile (fun c => c = ' ')).length)
  | l => l

/-- Function `outdent` (lines 27-29): `text.replace` of `/^(\t|[ ]{1,4})/mg`
with the empty string, i.e. one removal per line. -/
def outdent (s : String) : String :=
  ⟨joinNlL ((splitNlL s.data).map outdentLine)⟩

/-! ### The inline-tag whitelist and `sanitizeHtml` (lines 6-12, 36-40) -/

/-- Tag names of the first alternative of the `inlineTags` regex. -/
def inlineTagNames : List String :=
  ["a", "abbr", "acronym", "applet", "area", "b", "basefont",
   "bdo", "big", "button", "cite", "code", "del", "dfn", "em", "figcaption",
   "font", "i", "iframe", "img", "input", "ins", "kbd", "label", "map",
   "mark", "meter", "object", "param", "progress", "q", "ruby", "rp", "rt", "s",
   "samp", "script", "select", "small", "span", "strike", "strong",
   "sub", "sup", "textarea", "time", "tt", "u", "var", "wbr"]

/-- Pattern `[^>]*>` anchored at the end: every character but the last
differs from the closing bracket and the last is the closing bracket. -/
def closesTag : List Char → Bool
  | [] => false
  | [c] => c = '>'
  | c :: rest => c ≠ '>' && closesTag rest

/-- First alternative of `inlineTags`: `<\/?(name)[^>]*>` (anchored both
sides; the argument is already lower-cased). -/
def matchTagNamed (t : List Char) : Bool :=
  match t with
  | '<' :: r =>
    let r := if r.head? = some '/' then r.tail else r
    inlineTagNames.any (fun n => n.data.isPrefixOf r && closesTag (r.drop n.length))
  | _ => false

/-- Second alternative of `inlineTags`: `<(br)\s?\/?>` (anchored): the three
opening characters, an optional single whitespace, an optional slash, then
exactly the closing bracket. -/
def matchTagBr (t : List Char) : Bool :=
  decide (t.head? = some '<') && decide (t.tail.head? = some 'b')
    && decide (t.tail.tail.head? = some 'r')
    && (let r1 := t.drop 3
        let r2 := match r1.head? with
          | some c => if isSpaceJS c then r1.tail else r1
          | none => r1
        let r3 := if r2.head? = some '/' then r2.tail else r2
        decide (r3 = ['>']))

/-- The `inlineTags` whitelist regex (lines 6-12) as a predicate on a whole
candidate tag, case-insensitively (the `i` flag). -/
def inlineTags (tag : String) : Bool :=
  let t := tag.data.map Char.toLower
  matchTagNamed t || matchTagBr t

/-- Scanner for the source replacement of `/<[^>]*>?/gi` keeping only whitelisted tags
(lines 36-40): every `'<'` opens a candidate tag that runs to the next `'>'`
(inclusive) or to the end of the input, and is kept only if it matches the
whitelist. -/
def sanitizeAux (wl : String → Bool) : List Char → List Char
  | [] => []
  | c :: cs =>
    if c = '<' then
      let mid := cs.takeWhile (fun d => d ≠ '>')
      if mid.length < cs.length then
        -- the character at position `mid.length` is the closing '>'
        (if wl ⟨'<' :: (mid ++ ['>'])⟩ then '<' :: (mid ++ ['>']) else [])
          ++ sanitizeAux wl (cs.drop (mid.length + 1))
      else if wl ⟨'<' :: mid⟩ then '<' :: mid else []
    else c :: sanitizeAux wl cs
termination_by l => l.length
decreasing_by all_goals simp [List.length_drop] <;> omega

/-- Function `sanitizeHtml` (lines 36-40). -/
def sanitizeHtml (html : String) (wl : String → Bool) : String :=
  ⟨sanitizeAux wl html.data⟩

/-- Function `convertSpans` (lines 67-70): run the host converter, then keep only
whitelisted inline tags.  The host converter is a black-box parameter. -/
def convertSpans (text : String) (conv : String → String) : String :=
  sanitizeHtml (conv text) inlineTags

/-! ### Sentinels (lines 46-61) -/

/-- First statement of `addAnchors`: prepend STX if absent. -/
def ensureStx (l : List Char) : List Char :=
  if l.head? = some '\x02' then l else '\x02' :: l

/-- Second statement of `addAnchors`: append ETX if absent. -/
def ensureEtx (l : List Char) : List Char :=
  if l.getLast? = some '\x03' then l else l ++ ['\x03']

/-- Function `addAnchors` (lines 46-52). -/
def addAnchors (text : String) : String :=
  ⟨ensureEtx (ensureStx text.data)⟩

/-- First statement of `removeAnchors`: strip a leading STX if present. -/
def dropStx (l : List Char) : List Char :=
  if l.head? = some '\x02' then l.tail else l

/-- Second statement of `removeAnchors`: strip a trailing ETX if present. -/
def dropEtx (l : List Char) : List Char :=
  if l.getLast? = some '\x03' then l.dropLast else l

/-- Function `removeAnchors` (lines 54-61). -/
def removeAnchors (text : String) : String :=
  ⟨dropEtx (dropStx text.data)⟩

/-! ### The `Markdown.Extra` instance state (lines 86-105) -/

/-- The per-instance state of `Markdown.Extra`.  `converter` is the internal
pagedown converter (`this.converter`), a black-box string transformer. -/
structure Extra where
  converter : String → String
  hashBlocks : List String
  googleCodePrettify : Bool
  highlightJs : Bool
  tableClass : String
  tabWidth : Nat

/-- The constructor defaults (lines 86-105), with the internal converter
supplied as a parameter. -/
def mkExtra (conv : String → String) : Extra :=
  { converter := conv, hashBlocks := [], googleCodePrettify := false,
    highlightJs := false, tableClass := "", tabWidth := 4 }

/-- Decimal digits of a natural number, most significant first (JS number to
string conversion for the hash-block index). -/
def natDigits (n : Nat) : List Char :=
  if _h : n < 10 then [Nat.digitChar n]
  else natDigits (n / 10) ++ [Nat.digitChar (n % 10)]
termination_by n
decreasing_by exact Nat.div_lt_self (by omega) (by omega)

/-- JS `parseInt(s, 10)` on an all-digit string. -/
def digitsVal (l : List Char) : Nat :=
  l.foldl (fun a c => a * 10 + (c.toNat - 48)) 0

/-- The placeholder wire format emitted by `hashExtraBlock` (line 179):
`"<p>~X" + index + "X</p>"`. -/
def placeholder (i : Nat) : String :=
  "<p>~X" ++ ⟨natDigits i⟩ ++ "X</p>"

/-- Function `hashExtraBlock` (lines 178-180): append the block and return the
placeholder embedding the new highest index (`push` returns the new length,
the key is that length minus one, i.e. the length before the push). -/
def hashExtraBlock (e : Extra) (block : String) : String × Extra :=
  (placeholder e.hashBlocks.length,
   { e with hashBlocks := e.hashBlocks ++ [block] })

/-- Matcher for one occurrence of `/<p>~X(\d+)X<\/p>/` at the head of the
input; returns the parsed key and the total number of characters consumed. -/
def unhashMatch (l : List Char) : Option (Nat × Nat) :=
  match l with
  | '<' :: 'p' :: '>' :: '~' :: 'X' :: r =>
    let ds := r.takeWhile Char.isDigit
    if ds.isEmpty then none
    else
      match r.drop ds.length with
      | 'X' :: '<' :: '/' :: 'p' :: '>' :: _ => some (digitsVal ds, 5 + ds.length + 5)
      | _ => none
  | _ => none

/-- The replacement for a matched placeholder with key `key`.  When the key
is out of range, `hashBlocks[key]` is `undefined` in JS, and
`String.prototype.replace` stringifies the callback result, so the
replacement is the literal text `"undefined"`. -/
def unhashRep (blocks : List String) (key : Nat) : List Char :=
  match blocks.get? key with
  | some b => b.data
  | none => "undefined".data

/-- Scanner for `text.replace(/<p>~X(\d+)X<\/p>/g, (m, m1) => hashBlocks[parseInt(m1, 10)])`
(lines 184-191). -/
def unhashAux (blocks : List String) : List Char → List Char
  | [] => []
  | c :: cs =>
    match unhashMatch (c :: cs) with
    | some (key, used) =>
      unhashRep blocks key ++ unhashAux blocks (cs.drop (used - 1))
    | none => c :: unhashAux blocks cs
termination_by l => l.length
decreasing_by all_goals simp [List.length_drop] <;> omega

/-- Function `unHashExtraBlocks` (lines 184-191). -/
def unHashExtraBlocks (e : Extra) (text : String) : String :=
  ⟨unhashAux e.hashBlocks text.data⟩

/-- Function `finishConversion` (lines 170-174): unhash all placeholders, then clear
the store. -/
def finishConversion (e : Extra) (text : String) : String × Extra :=
  (unHashExtraBlocks e text, { e with hashBlocks := [] })

/-! ### Fenced code blocks (lines 315-347) -/

/-- Function `encodeCode` (lines 316-321): escape the ampersand, then the
angle brackets, in that order. -/
def encodeCode (s : String) : String :=
  ⟨substChar '>' "&gt;".data
    (substChar '<' "&lt;".data
      (substChar '&' "&amp;".data s.data))⟩

/-- The html fragment built for one fenced block (lines 327-340). `language`
is truthy in JS exactly when it is nonempty. -/
def fencedHtml (pretty hjs : Bool) (language codeblock : String) : String :=
  let preclass := if pretty then " class=\"prettyprint\"" else ""
  let codeclass :=
    if language ≠ "" then
      if pretty || hjs then " class=\"language-" ++ language ++ "\""
      else " class=\"" ++ language ++ "\""
    else ""
  "<pre" ++ preclass ++ "><code" ++ codeclass ++ ">"
    ++ encodeCode codeblock ++ "</code></pre>"

/-- Matcher for the part of `/(?:^|\n)```(.*)\n([\s\S]*?)\n```/` after the
`(?:^|\n)` prefix: three backticks, a greedy language tag running to the end
of the line, a newline, then the lazy body stopping at the first `"\n```"`.
Returns the language, the body, and the number of characters consumed. -/
def tryFenced (l : List Char) : Option (String × String × Nat) :=
  match l with
  | '`' :: '`' :: '`' :: r =>
    let lang := r.takeWhile (fun c => c ≠ '\n')
    match r.drop lang.length with
    | '\n' :: r2 =>
      match findSub "\n```".data r2 with
      | some i => some (⟨lang⟩, ⟨r2.take i⟩, 3 + lang.length + 1 + i + 4)
      | none => none
    | _ => none
  | _ => none

/-- Global scan for matches whose `(?:^|\n)` prefix is a literal newline
(every match position other than the very start of the input). The consumed
leading newline is part of the match and is not re-emitted. -/
def fencedScan (pretty hjs : Bool) (blocks : List String) :
    List Char → List Char × List String
  | [] => ([], blocks)
  | c :: cs =>
    if c = '\n' then
      match tryFenced cs with
      | some (lang, code, used) =>
        let html := fencedHtml pretty hjs lang code
        let (res, bs) := fencedScan pretty hjs (blocks ++ [html]) (cs.drop used)
        ((placeholder blocks.length).data ++ res, bs)
      | none =>
        let (res, bs) := fencedScan pretty hjs blocks cs
        ('\n' :: res, bs)
    else
      let (res, bs) := fencedScan pretty hjs blocks cs
      (c :: res, bs)
termination_by l => l.length
decreasing_by all_goals simp [List.length_drop] <;> omega

/-- Function `fencedCodeBlocks` (lines 315-347): the `^` alternative of `(?:^|\n)` can
only fire at position 0 (the regex has no `m` flag), so a match at the very
start is tried first and the rest of the text is scanned for
newline-prefixed matches. -/
def fencedCodeBlocks (e : Extra) (text : String) : String × Extra :=
  match tryFenced text.data with
  | some (lang, code, used) =>
    let html := fencedHtml e.googleCodePrettify e.highlightJs lang code
    let (res, bs) := fencedScan e.googleCodePrettify e.highlightJs
      (e.hashBlocks ++ [html]) (text.data.drop used)
    (⟨(placeholder e.hashBlocks.length).data ++ res⟩, { e with hashBlocks := bs })
  | none =>
    let (res, bs) := fencedScan e.googleCodePrettify e.highlightJs
      e.hashBlocks text.data
    (⟨res⟩, { e with hashBlocks := bs })

/-! ### Tables (lines 199-307) -/

/-- Regex `/^ *[|]/` on a single line: all leading spaces followed by a pipe are
removed; a line without a leading pipe is unchanged.  Returns `none` when the
pattern does not match. -/
def leadPipeStrip? (line : List Char) : Option (List Char) :=
  match line.dropWhile (fun c => c = ' ') with
  | '|' :: r => some r
  | _ => none

/-- Source `s.replace` of `/^ *[|]/m` with the empty string: only the first
line that matches is rewritten. -/
def stripLeadPipeLines : List (List Char) → List (List Char)
  | [] => []
  | l :: ls =>
    match leadPipeStrip? l with
    | some r => r :: ls
    | none => l :: stripLeadPipeLines ls

def stripLeadPipeFirst (s : List Char) : List Char :=
  joinNlL (stripLeadPipeLines (splitNlL s))

/-- Source `s.replace` of `/^ *[|]/gm` with the empty string: every matching
line is rewritten. -/
def stripLeadPipeAll (s : List Char) : List Char :=
  joinNlL ((splitNlL s).map (fun l => (leadPipeStrip? l).getD l))

/-- The leftmost position in a line where `/[|] *$/` matches: the first pipe
followed only by spaces up to the end of the line. -/
def trailPipeIdx (line : List Char) : Option Nat :=
  match line with
  | [] => none
  | c :: cs =>
    if c = '|' && cs.all (fun d => d = ' ') then some 0
    else (trailPipeIdx cs).map (· + 1)

def trailPipeStrip? (line : List Char) : Option (List Char) :=
  (trailPipeIdx line).map (line.take ·)

/-- Source `s.replace` of `/[|] *$/m` with the empty string: only the first
matching line. -/
def stripTrailPipeLines : List (List Char) → List (List Char)
  | [] => []
  | l :: ls =>
    match trailPipeStrip? l with
    | some r => r :: ls
    | none => l :: stripTrailPipeLines ls

def stripTrailPipeFirst (s : List Char) : List Char :=
  joinNlL (stripTrailPipeLines (splitNlL s))

/-- Source `s.replace` of `/[|] *$/gm` with the empty string: every matching
line. -/
def stripTrailPipeAll (s : List Char) : List Char :=
  joinNlL ((splitNlL s).map (fun l => (trailPipeStrip? l).getD l))

/-- JS `s.split(/ *[|] */)` (lines 251, 266, 287): each separator match is a
single pipe together with the spaces immediately around it. -/
def splitPipesAux (cur : List Char) : List Char → List (List Char)
  | [] => [cur.reverse]
  | c :: cs =>
    if c = '|' then
      -- dropping the spaces that follow the pipe, written as a `drop` of the
      -- length of the space run so the recursion is on a plain `drop`
      (cur.dropWhile (fun d => d = ' ')).reverse
        :: splitPipesAux [] (cs.drop (cs.takeWhile (fun d => d = ' ')).length)
    else splitPipesAux (c :: cur) cs
termination_by l => l.length
decreasing_by all_goals simp [List.length_drop] <;> omega

def splitPipesL (l : List Char) : List (List Char) := splitPipesAux [] l

/-- One line fully matching `/^ *-+: *$/`: leading spaces, a nonempty dash
run, a colon, then only spaces. -/
def alignRightLine (l : List Char) : Bool :=
  let l1 := l.dropWhile (fun c => c = ' ')
  let d := l1.takeWhile (fun c => c = '-')
  !d.isEmpty && (l1.drop d.length).head? = some ':'
    && (l1.drop d.length).tail.all (fun c => c = ' ')

/-- One line fully matching `/^ *:-+: *$/`. -/
def alignCenterLine (l : List Char) : Bool :=
  let l1 := l.dropWhile (fun c => c = ' ')
  let r := l1.tail
  let d := r.takeWhile (fun c => c = '-')
  l1.head? = some ':' && !d.isEmpty && (r.drop d.length).head? = some ':'
    && (r.drop d.length).tail.all (fun c => c = ' ')

/-- One line fully matching `/^ *:-+ *$/`. -/
def alignLeftLine (l : List Char) : Bool :=
  let l1 := l.dropWhile (fun c => c = ' ')
  let r := l1.tail
  let d := r.takeWhile (fun c => c = '-')
  l1.head? = some ':' && !d.isEmpty && (r.drop d.length).all (fun c => c = ' ')

/-- The alignment-classification cascade of `doTable` (lines 253-262).  Each
test regex carries the `m` flag, so it fires when any line of the token
matches. -/
def alignOf (spec : List Char) : String :=
  if (splitNlL spec).any alignRightLine then " style=\"text-align:right;\""
  else if (splitNlL spec).any alignCenterLine then " style=\"text-align:center;\""
  else if (splitNlL spec).any alignLeftLine then " style=\"text-align:left;\""
  else ""

/-- One header cell: `"  <th" + align[i] + ">" + headerHtml + "</th>\n"`
(line 276).  A JS array `join` turns an `undefined` entry into the empty
string, hence `getD ""`. -/
def thCell (conv : String → String) (align : List String)
    (headers : List (List Char)) (i : Nat) : String :=
  "  <th" ++ align.getD i "" ++ ">"
    ++ convertSpans (trim ⟨headers.getD i []⟩) conv ++ "</th>\n"

/-- The header-cell loop of `doTable` (lines 274-277). -/
def tableThs (conv : String → String) (align : List String)
    (headers : List (List Char)) : List String :=
  (List.range headers.length).map (thCell conv align headers)

/-- Row cells padded with empty cells up to `colCount` (lines 287-290): when
the split yields more cells than `colCount` the pad count is negative in JS
and nothing is appended. -/
def rowCellsPadded (colCount : Nat) (row : List Char) : List (List Char) :=
  let cells := splitPipesL row
  cells ++ List.replicate (colCount - cells.length) []

/-- One data cell (line 295). -/
def tdCell (conv : String → String) (align : List String)
    (cells : List (List Char)) (j : Nat) : String :=
  "  <td" ++ align.getD j "" ++ ">"
    ++ convertSpans (trim ⟨cells.getD j []⟩) conv ++ "</td>\n"

/-- One rendered row (lines 292-297): exactly `colCount` cells are emitted. -/
def rowHtml (conv : String → String) (align : List String) (colCount : Nat)
    (row : List Char) : String :=
  "<tr>\n"
    ++ String.join ((List.range colCount).map
         (tdCell conv align (rowCellsPadded colCount row)))
    ++ "</tr>\n"

/-- The body-row loop (lines 281-298): a line matching `/^\s*$/` is skipped
(`continue`). -/
def tableRows (conv : String → String) (align : List String) (colCount : Nat)
    (rows : List (List Char)) : List String :=
  rows.filterMap (fun r =>
    if r.all isSpaceJS then none else some (rowHtml conv align colCount r))

/-- The cleanup applied to the header and separator captures (lines 241-247):
first leading pipe, then first trailing pipe. -/
def cleanCapFirst (s : String) : List Char :=
  stripTrailPipeFirst (stripLeadPipeFirst s.data)

/-- The cleanup applied to the body capture (lines 243, 248): every line. -/
def cleanCapAll (s : String) : List Char :=
  stripTrailPipeAll (stripLeadPipeAll s.data)

/-- The alignment array (lines 251-262). -/
def tableAligns (separator : String) : List String :=
  (splitPipesL (cleanCapFirst separator)).map (fun s => alignOf s)

/-- The html built by `doTable` from the three captures (lines 239-300),
before hashing. -/
def tableHtml (conv : String → String) (tableClass : String)
    (header separator body : String) : String :=
  let align := tableAligns separator
  let headers := splitPipesL (cleanCapFirst header)
  let cls := if tableClass ≠ "" then " class=\"" ++ tableClass ++ "\"" else ""
  "<table" ++ cls ++ ">\n<thead>\n<tr>\n"
    ++ String.join (tableThs conv align headers)
    ++ "</tr>\n</thead>\n"
    ++ String.join (tableRows conv align headers.length (splitNlL (cleanCapAll body)))
    ++ "</table>\n"

/-- Function `doTable` (lines 239-304): build the html and store it, returning the
placeholder. -/
def doTable (e : Extra) (header separator body : String) : String × Extra :=
  hashExtraBlock e (tableHtml e.converter e.tableClass header separator body)

/-- Header line of the `leadingPipe` grammar: `^[ ]{0,3}[|](.+)$` (the `\n`
after it is accounted for by the line split).  Returns the `$1` capture. -/
def headerLP? (line : List Char) : Option (List Char) :=
  let sp := line.takeWhile (fun c => c = ' ')
  if sp.length ≤ 3 then
    match line.drop sp.length with
    | '|' :: r => if r.isEmpty then none else some r
    | _ => none
  else none

/-- Pattern `[ ]*[-:]+[-| :]*` consuming the whole remainder of the separator line:
after leading spaces at least one `-`/`:` and then only `-`, `|`, space or
`:`. -/
def sepLineShape (r : List Char) : Bool :=
  match r.dropWhile (fun c => c = ' ') with
  | c :: rest =>
    (c = '-' || c = ':')
      && rest.all (fun d => d = '-' || d = '|' || d = ' ' || d = ':')
  | [] => false

/-- Separator line of the `leadingPipe` grammar:
`^[ ]{0,3}[|]([ ]*[-:]+[-| :]*)$`; returns the `$2` capture. -/
def sepLP? (line : List Char) : Option (List Char) :=
  let sp := line.takeWhile (fun c => c = ' ')
  if sp.length ≤ 3 then
    match line.drop sp.length with
    | '|' :: r => if sepLineShape r then some r else none
    | _ => none
  else none

/-- Body line of the `leadingPipe` grammar: `[ ]*[|].*`. -/
def bodyLineLP (line : List Char) : Bool :=
  match line.dropWhile (fun c => c = ' ') with
  | '|' :: _ => true
  | _ => false

/-- Header line of the `noLeadingPipe` grammar: `^[ ]{0,3}(\S.*[|].*)$` —
at most three leading spaces, then a non-whitespace character, with a pipe
strictly after it.  Returns the `$1` capture. -/
def headerNP? (line : List Char) : Option (List Char) :=
  let sp := line.takeWhile (fun c => c = ' ')
  if sp.length ≤ 3 then
    match line.drop sp.length with
    | c :: r =>
      if !isSpaceJS c && r.any (fun d => d = '|') then some (c :: r) else none
    | [] => none
  else none

/-- Separator line of the `noLeadingPipe` grammar:
`^[ ]{0,3}([-:]+[ ]*[|][-| :]*)$`; returns the `$2` capture. -/
def sepNP? (line : List Char) : Option (List Char) :=
  let sp := line.takeWhile (fun c => c = ' ')
  if sp.length ≤ 3 then
    let r := line.drop sp.length
    let ds := r.takeWhile (fun c => c = '-' || c = ':')
    if ds.isEmpty then none
    else
      match (r.drop ds.length).dropWhile (fun c => c = ' ') with
      | '|' :: rest =>
        if rest.all (fun d => d = '-' || d = '|' || d = ' ' || d = ':')
        then some r else none
      | _ => none
  else none

/-- Body line of the `noLeadingPipe` grammar: `.*[|].*`. -/
def bodyLineNP (line : List Char) : Bool :=
  line.any (fun d => d = '|')

/-- Attempt a table match at the head of `lines` for one of the two grammars.
The separator line must be newline-terminated (there must be a following
line).  The body is the maximal run of body-shaped lines.  The trailing
`(?:\n|$)` then succeeds in one of four ways: at the end of the text via the
`$` alternative; on a following empty line, whose newline the `\n`
alternative consumes; or, when a non-blank non-body line follows a non-empty
body run, by backtracking: the optional `\n?` of the last body iteration is
given back to empty, the `\n` alternative consumes that newline, the match
ends at the same position, and the body capture loses its trailing newline.
Only when no body line matched and a non-blank line follows does the whole
match fail, since the separator's mandatory newline has no optionality to
give back.  Returns the captures `(header, separator, body)` and the number
of consumed lines. -/
def tryTableAt (hdr? sep? : List Char → Option (List Char))
    (bodyLine : List Char → Bool) (lines : List (List Char)) :
    Option ((List Char × List Char × List Char) × Nat) :=
  match lines with
  | l0 :: l1 :: rest =>
    match hdr? l0, sep? l1 with
    | some h, some s =>
      if rest.isEmpty then none
      else
        let bodyLines := rest.takeWhile bodyLine
        let after := rest.drop bodyLines.length
        match after with
        | [] =>
          -- the last body line ends the text without a trailing newline
          some ((h, s, joinNlL bodyLines), 2 + bodyLines.length)
        | x :: _ =>
          if x.isEmpty then
            -- empty line: either the end-of-text marker (if last) or a
            -- consumed blank line; in both cases it is consumed
            some ((h, s, (bodyLines.map (· ++ ['\n'])).flatten),
                  2 + bodyLines.length + 1)
          else if bodyLines.isEmpty then
            -- no body line and a non-blank follower: the terminator fails
            none
          else
            -- non-blank non-body follower: the last body newline is handed
            -- back to the terminator; the follower line is not consumed
            some ((h, s, joinNlL bodyLines), 2 + bodyLines.length)
    | _, _ => none
  | _ => none

/-- Line-based global scan of one `text.replace(tableGrammar, doTable)` pass.
The `^`-anchored multiline grammar can only fire at line starts; after a
match the scan resumes right after the consumed lines, so the placeholder is
directly adjacent to the remaining text. -/
def tablesScan (conv : String → String) (cls : String)
    (hdr? sep? : List Char → Option (List Char))
    (bodyLine : List Char → Bool) (blocks : List String) :
    List (List Char) → List Char × List String
  | [] => ([], blocks)
  | [l] => (l, blocks)
  | l0 :: l1 :: rest =>
    match tryTableAt hdr? sep? bodyLine (l0 :: l1 :: rest) with
    | some ((h, s, b), used) =>
      let html := tableHtml conv cls ⟨h⟩ ⟨s⟩ ⟨b⟩
      let (res, bs) := tablesScan conv cls hdr? sep? bodyLine
        (blocks ++ [html]) ((l1 :: rest).drop (used - 1))
      ((placeholder blocks.length).data ++ res, bs)
    | none =>
      let (res, bs) := tablesScan conv cls hdr? sep? bodyLine blocks (l1 :: rest)
      (l0 ++ '\n' :: res, bs)
termination_by lines => lines.length
decreasing_by all_goals simp [List.length_drop] <;> omega

/-- Function `tables` (lines 199-307): the `leadingPipe` pass followed by the
`noLeadingPipe` pass on its output. -/
def tables (e : Extra) (text : String) : String × Extra :=
  let (t1, b1) := tablesScan e.converter e.tableClass headerLP? sepLP?
    bodyLineLP e.hashBlocks (splitNlL text.data)
  let (t2, b2) := tablesScan e.converter e.tableClass headerNP? sepNP?
    bodyLineNP b1 (splitNlL t1)
  (⟨t2⟩, { e with hashBlocks := b2 })

/-! ### Definition lists (lines 361-479)

The `wholeList`, `dt` and `dd` regexes are hand-compiled below.  Two quirks
of the JavaScript source are preserved faithfully:
the end-of-text alternative of `wholeList` is written `(?=\0x03)` (a NUL
character followed by the literal text `x03`, not the ETX sentinel), and the
term pattern inside the negative lookahead is `(?:\S.*\n )+?` (each line must
be followed by a newline and then a literal space). -/

/-- The leading alternative `(\x02\n?|\n\n)` of `wholeList`: returns the
matched text and its length. -/
def defPre? (l : List Char) : Option (List Char × Nat) :=
  match l with
  | '\x02' :: '\n' :: _ => some (['\x02', '\n'], 2)
  | '\x02' :: _ => some (['\x02'], 1)
  | '\n' :: '\n' :: _ => some (['\n', '\n'], 2)
  | _ => none

/-- One term line `[ \t]*\S.*\n` of `wholeList` (JS `.` does not match `\n`
or `\r`): returns the number of characters consumed. -/
def termLineLen? (l : List Char) : Option Nat :=
  let sp := l.takeWhile (fun c => c = ' ' || c = '\t')
  match l.drop sp.length with
  | c :: r =>
    if isSpaceJS c then none
    else
      let run := r.takeWhile (fun d => !(d = '\n' || d = '\r'))
      match r.drop run.length with
      | '\n' :: _ => some (sp.length + 1 + run.length + 1)
      | _ => none
  | [] => none

/-- The maximal run of term lines, as the list of their lengths. -/
def termRun : List Char → List Nat
  | [] => []
  | c :: cs =>
    match termLineLen? (c :: cs) with
    | none => []
    | some k => k :: termRun (cs.drop (k - 1))
termination_by l => l.length
decreasing_by all_goals simp [List.length_drop] <;> omega

/-- Pattern `[ ]{0,3}:[ ]+`: at most three spaces, a colon, one or more spaces;
returns the number of characters consumed. -/
def colonMarkerLen? (l : List Char) : Option Nat :=
  let sp := l.takeWhile (fun c => c = ' ')
  if sp.length ≤ 3 then
    match l.drop sp.length with
    | ':' :: r =>
      let sp2 := r.takeWhile (fun c => c = ' ')
      if sp2.isEmpty then none else some (sp.length + 1 + sp2.length)
    | _ => none
  else none

/-- Pattern `\n?` followed by the colon marker (the greedy optional newline can only
succeed in its consuming form, since the marker never starts with `\n`). -/
def markerAfterTerms? (l : List Char) : Option Nat :=
  match l with
  | '\n' :: r => (colonMarkerLen? r).map (· + 1)
  | _ => colonMarkerLen? l

/-- One unit `\S.*\n ` of the term pattern inside `wholeList`'s negative
lookahead (note the trailing literal space in the JS source): consumed
length. -/
def weirdTermUnit? (l : List Char) : Option Nat :=
  match l with
  | c :: r =>
    if isSpaceJS c then none
    else
      let run := r.takeWhile (fun d => !(d = '\n' || d = '\r'))
      match r.drop run.length with
      | '\n' :: ' ' :: _ => some (1 + run.length + 2)
      | _ => none
  | [] => none

/-- The lazy chain `(?:\S.*\n )+?\n?[ ]{0,3}:[ ]+` of that lookahead. -/
def weirdChain : List Char → Bool
  | [] => false
  | c :: cs =>
    match weirdTermUnit? (c :: cs) with
    | none => false
    | some k =>
      let r := cs.drop (k - 1)
      (markerAfterTerms? r).isSome || weirdChain r
termination_by l => l.length
decreasing_by all_goals simp [List.length_drop] <;> omega

/-- The term pattern of the negative lookahead:
`[ ]{0,3}(?:\S.*\n )+?\n?[ ]{0,3}:[ ]+`. -/
def weirdTermLook (l : List Char) : Bool :=
  let sp := l.takeWhile (fun c => c = ' ')
  sp.length ≤ 3 && weirdChain (l.drop sp.length)

/-- The first end-of-body alternative `(?=\0x03)`: a NUL character followed
by the literal characters `x`, `0`, `3` (a quirk of the JS source; the
intended ETX sentinel is never looked for). -/
def defEndNul : List Char → Bool
  | '\x00' :: 'x' :: '0' :: '3' :: _ => true
  | _ => false

/-- The end-of-body condition of `wholeList` at a given suffix: the NUL
alternative, or a maximal run of two or more newlines followed by a
non-whitespace character at which neither another term block (in the quirky
`\n ` form) nor another colon-marked definition begins. -/
def defEndCond (l : List Char) : Bool :=
  defEndNul l ||
    (let nls := l.takeWhile (fun c => c = '\n')
     decide (2 ≤ nls.length) &&
       (match l.drop nls.length with
        | c :: r =>
          !isSpaceJS c && !weirdTermLook (c :: r)
            && (colonMarkerLen? (c :: r)).isNone
        | [] => false))

/-- Position (relative to the current suffix) of the first end-of-body
condition. -/
def defBodyScan : List Char → Option Nat
  | [] => if defEndCond [] then some 0 else none
  | c :: cs =>
    if defEndCond (c :: cs) then some 0
    else (defBodyScan cs).map (· + 1)

/-- Length of the lazy body `[\s\S]+?`: at least one character, stopping at
the first position satisfying the end condition. -/
def bodyLen : List Char → Option Nat
  | [] => none
  | _ :: cs => (defBodyScan cs).map (· + 1)

/-- Backtracking over the greedy term-line run: try the longest run first;
for each candidate run, the optional blank line and colon marker must match
and a body end must exist.  Returns the length of the `$2` capture (from
after the leading alternative through the body). -/
def defTryLens (l : List Char) : List Nat → Option Nat
  | [] => none
  | k :: ktail =>
    let p := (k :: ktail).sum
    match markerAfterTerms? (l.drop p) with
    | some m =>
      match bodyLen (l.drop (p + m)) with
      | some blen => some (p + m + blen)
      | none => defTryLens l (k :: ktail).dropLast
    | none => defTryLens l (k :: ktail).dropLast
termination_by ks => ks.length
decreasing_by all_goals simp [List.length_dropLast] <;> omega

/-- Attempt a `wholeList` match at the head of `l`: the leading alternative,
then (through backtracking) one or more term lines, an optional blank line,
a colon marker and a lazy body ending at the end condition.  Returns the
`$1` capture (`pre`), the `$2` capture (the whole list), and the total
number of characters consumed. -/
def tryWholeListAt (l : List Char) : Option (List Char × List Char × Nat) :=
  match defPre? l with
  | none => none
  | some (pre, pl) =>
    let r := l.drop pl
    match defTryLens r (termRun r) with
    | none => none
    | some listLen => some (pre, r.take listLen, pl + listLen)

/-! #### `processDefListItems` (lines 411-479) -/

/-- Source `listStr.replace(/\n{2,}(?=\\x03)/, "\n")` (line 445): in a regex
literal `\\x03` is a literal backslash followed by `x03`, so the lookahead
is for those four characters (another preserved quirk); only the first match
is replaced and the rest of the string is copied verbatim. -/
def trimTrailBlank : List Char → List Char
  | [] => []
  | c :: cs =>
    let nls := (c :: cs).takeWhile (fun d => d = '\n')
    if 2 ≤ nls.length && "\\x03".data.isPrefixOf ((c :: cs).drop nls.length) then
      '\n' :: (c :: cs).drop nls.length
    else c :: trimTrailBlank cs

/-- The leading alternative `(\x02\n?|\n\n+)` of the `dt` regex (the run of
newlines is greedy). -/
def dtPre? (l : List Char) : Option (List Char × Nat) :=
  match l with
  | '\x02' :: '\n' :: _ => some (['\x02', '\n'], 2)
  | '\x02' :: _ => some (['\x02'], 1)
  | '\n' :: '\n' :: _ =>
    let nls := l.takeWhile (fun c => c = '\n')
    some (nls, nls.length)
  | _ => none

/-- One `\S.*\n` term line of the `dt` regex (no indentation allowed). -/
def dtLineLen? (l : List Char) : Option Nat :=
  match l with
  | c :: r =>
    if isSpaceJS c then none
    else
      let run := r.takeWhile (fun d => !(d = '\n' || d = '\r'))
      match r.drop run.length with
      | '\n' :: _ => some (1 + run.length + 1)
      | _ => none
  | [] => none

/-- The `dt` lookahead `(?=\n?[ ]{0,3}:[ ])`: optional newline, at most
three spaces, a colon and a single space. -/
def dtLook (l : List Char) : Bool :=
  let check (x : List Char) : Bool :=
    let sp := x.takeWhile (fun c => c = ' ')
    decide (sp.length ≤ 3) &&
      (match x.drop sp.length with
       | ':' :: ' ' :: _ => true
       | _ => false)
  match l with
  | '\n' :: r => check r
  | _ => check l

/-- The lazy run `(?:\S.*\n)+?` of the `dt` regex: the shortest run of term
lines after which the lookahead succeeds.  Returns the consumed length. -/
def dtChain : List Char → Option Nat
  | [] => none
  | c :: cs =>
    match dtLineLen? (c :: cs) with
    | none => none
    | some k =>
      let rest := cs.drop (k - 1)
      if dtLook rest then some k
      else (dtChain rest).map (k + ·)
termination_by l => l.length
decreasing_by all_goals simp [List.length_drop] <;> omega

/-- Attempt a `dt` match at the head of `l`: the leading alternative, at
most three spaces not followed by another space or by a colon-space, then
the lazy term-line run up to the lookahead.  Returns the `$2` capture
(`termsStr`, including the leading spaces) and the consumed length. -/
def tryDtAt (l : List Char) : Option (List Char × Nat) :=
  match dtPre? l with
  | none => none
  | some (_pre, pl) =>
    let r := l.drop pl
    let sp := r.takeWhile (fun c => c = ' ')
    if sp.length ≤ 3 then
      match r.drop sp.length with
      | ':' :: ' ' :: _ => none  -- the negative lookahead (?![:][ ]|[ ])
      | _ =>
        match dtChain (r.drop sp.length) with
        | some tlen => some (r.take (sp.length + tlen), pl + sp.length + tlen)
        | none => none
    else none

/-- The `dt` callback (lines 448-458): each line of the trimmed `$2` becomes
one span-rendered `<dt>`; the leading newlines of the match are consumed and
not re-emitted. -/
def dtReplacement (conv : String → String) (termsStr : String) : String :=
  let terms := splitNlL (trim termsStr).data
  String.join (terms.map (fun t =>
    "\n<dt>" ++ convertSpans (trim ⟨t⟩) conv ++ "</dt>")) ++ "\n"

/-- Global scan of `listStr.replace(dt, ...)`. -/
def dtScan (conv : String → String) : List Char → List Char
  | [] => []
  | c :: cs =>
    match tryDtAt (c :: cs) with
    | some (termsStr, used) =>
      (dtReplacement conv ⟨termsStr⟩).data ++ dtScan conv (cs.drop (used - 1))
    | none => c :: dtScan conv cs
termination_by l => l.length
decreasing_by all_goals simp [List.length_drop] <;> omega

/-- One alternative of the `dd` lookahead at a given suffix:
`\n[ ]{0,3}[:][ ]`, or `<dt>`, or the ETX sentinel. -/
def ddLookAlt (x : List Char) : Bool :=
  (match x with
   | '\n' :: r =>
     let sp := r.takeWhile (fun c => c = ' ')
     decide (sp.length ≤ 3) &&
       (match r.drop sp.length with
        | ':' :: ' ' :: _ => true
        | _ => false)
   | _ => false)
  || "<dt>".data.isPrefixOf x || x.head? = some '\x03'

/-- The `dd` lookahead `(?=\n*(?:\n[ ]{0,3}[:][ ]|<dt>|\x03))`: some prefix
of the newline run may be skipped before an alternative fires. -/
def ddLook (l : List Char) : Bool :=
  let run := (l.takeWhile (fun c => c = '\n')).length
  (List.range (run + 1)).any (fun j => ddLookAlt (l.drop j))

/-- Position of the first suffix satisfying the `dd` lookahead. -/
def ddBodyScan : List Char → Option Nat
  | [] => if ddLook [] then some 0 else none
  | c :: cs =>
    if ddLook (c :: cs) then some 0
    else (ddBodyScan cs).map (· + 1)

/-- Length of the lazy `dd` body `[\s\S]+?` (at least one character). -/
def ddBodyLen : List Char → Option Nat
  | [] => none
  | _ :: cs => (ddBodyScan cs).map (· + 1)

/-- Attempt a `dd` match at the head of `l`:
`\n(\n+)?([ ]{0,3}[:][ ]+)([\s\S]+?)` up to the lookahead.  Returns the
captures `$1` (empty when absent), `$2`, `$3` and the consumed length. -/
def tryDdAt (l : List Char) : Option (List Char × List Char × List Char × Nat) :=
  match l with
  | '\n' :: r =>
    let nls := r.takeWhile (fun c => c = '\n')
    let r2 := r.drop nls.length
    match colonMarkerLen? r2 with
    | some ml =>
      let r3 := r2.drop ml
      match ddBodyLen r3 with
      | some blen =>
        some (nls, r2.take ml, r3.take blen, 1 + nls.length + ml + blen)
      | none => none
    | none => none
  | _ => none

/-- The `dd` callback (lines 461-476): a definition preceded by a blank line
(`leading_line` nonempty) or containing an internal blank-line gap
(`/\n{2,}/`, i.e. an occurrence of two consecutive newlines) is rendered
loose: the first line is re-indented by the marker width, the body is
outdented one level, terminated by a blank line and passed through the
host's full document render.  Otherwise it is rendered tight: trailing
whitespace trimmed, outdented, span-rendered. -/
def ddReplacement (conv : String → String)
    (leading_line marker_space ddef : String) : String :=
  if leading_line ≠ "" || hasSubL "\n\n".data ddef.data then
    let d1 : String := ⟨List.replicate marker_space.length ' '⟩ ++ ddef
    let d2 := outdent d1 ++ "\n\n"
    "\n<dd>" ++ ("\n" ++ conv d2 ++ "\n") ++ "</dd>\n"
  else
    "\n<dd>" ++ convertSpans (outdent (rtrim ddef)) conv ++ "</dd>\n"

/-- Global scan of `listStr.replace(dd, ...)`. -/
def ddScan (conv : String → String) : List Char → List Char
  | [] => []
  | c :: cs =>
    match tryDdAt (c :: cs) with
    | some (ll, ms, d, used) =>
      (ddReplacement conv ⟨ll⟩ ⟨ms⟩ ⟨d⟩).data ++ ddScan conv (cs.drop (used - 1))
    | none => c :: ddScan conv cs
termination_by l => l.length
decreasing_by all_goals simp [List.length_drop] <;> omega

/-- Function `processDefListItems` (lines 411-479). -/
def processDefListItems (conv : String → String) (listStr : String) : String :=
  let l := (addAnchors listStr).data
  let l := trimTrailBlank l
  let l := dtScan conv l
  let l := ddScan conv l
  removeAnchors ⟨l⟩

/-- Global scan of `text.replace(wholeList, ...)` (lines 398-404): each
match is replaced by `pre + hashExtraBlock("<dl>\n" + trim(items) + "\n</dl>") + "\n\n"`. -/
def defListScan (conv : String → String) (blocks : List String) :
    List Char → List Char × List String
  | [] => ([], blocks)
  | c :: cs =>
    match tryWholeListAt (c :: cs) with
    | some (pre, lst, used) =>
      let inner := trim (processDefListItems conv ⟨lst⟩)
      let result := "<dl>\n" ++ inner ++ "\n</dl>"
      let (res, bs) := defListScan conv (blocks ++ [result]) (cs.drop (used - 1))
      (pre ++ (placeholder blocks.length).data ++ '\n' :: '\n' :: res, bs)
    | none =>
      let (res, bs) := defListScan conv blocks cs
      (c :: res, bs)
termination_by l => l.length
decreasing_by all_goals simp [List.length_drop] <;> omega

/-- Function `definitionLists` (lines 361-407): add the sentinels, run the
`wholeList` replacement, remove the sentinels. -/
def definitionLists (e : Extra) (text : String) : String × Extra :=
  let (res, bs) := defListScan e.converter e.hashBlocks (addAnchors text).data
  (removeAnchors ⟨res⟩, { e with hashBlocks := bs })

/-! ### `all` and `doConversion` (lines 158-166, 349-353) -/

/-- Function `all` (lines 349-353): tables then fenced code blocks. -/
def all (e : Extra) (text : String) : String × Extra :=
  let (t1, e1) := tables e text
  fencedCodeBlocks e1 t1

/-- The four transformation names that `init` can place in the
`transformations` list. -/
inductive Transformation where
  | tables
  | fencedCodeBlocks
  | definitionLists
  | all
deriving DecidableEq

/-- Dispatch `this[transformations[i]](text)`. -/
def applyTransformation (e : Extra) : Transformation → String → String × Extra
  | Transformation.tables, t => tables e t
  | Transformation.fencedCodeBlocks, t => fencedCodeBlocks e t
  | Transformation.definitionLists, t => definitionLists e t
  | Transformation.all, t => all e t

/-- Function `doConversion` (lines 158-166): reset the store, normalize escapes, run
the configured transformations in order, and append one newline. -/
def doConversion (e : Extra) (ts : List Transformation) (text : String) :
    String × Extra :=
  let e0 := { e with hashBlocks := [] }
  let start := processEscapes text
  let p := ts.foldl
    (fun (acc : String × Extra) tr => applyTransformation acc.2 tr acc.1)
    (start, e0)
  (p.1 ++ "\n", p.2)

/-! ### Claim-side shapes and match-freeness predicates -/

/-- The `-+` token shape (with the optional surrounding spaces the source
regexes allow): the class the claim calls plain dashes. -/
def dashOnlyLine (l : List Char) : Bool :=
  let l1 := l.dropWhile (fun c => c = ' ')
  let d := l1.takeWhile (fun c => c = '-')
  !d.isEmpty && (l1.drop d.length).all (fun c => c = ' ')

/-- Texts built by embedding placeholders between surrounding segments. -/
def embedText : List (List Char × Nat) → List Char → List Char
  | [], t => t
  | (s, i) :: ps, t => s ++ (placeholder i).data ++ embedText ps t

/-- The same interleaving with each placeholder replaced by its stored
fragment (out-of-range keys become the literal `"undefined"`). -/
def restoredText (blocks : List String) : List (List Char × Nat) → List Char → List Char
  | [], t => t
  | (s, i) :: ps, t => s ++ unhashRep blocks i ++ restoredText blocks ps t

/-- No placeholder match starts inside `s` when followed by `rest`. -/
def cleanAt (s rest : List Char) : Bool :=
  (List.range s.length).all (fun k => (unhashMatch (s.drop k ++ rest)).isNone)

/-- Every surrounding segment of the embedding is clean for its
continuation. -/
def cleanEmbed : List (List Char × Nat) → List Char → Bool
  | [], t => cleanAt t []
  | (s, i) :: ps, t =>
    cleanAt s ((placeholder i).data ++ embedText ps t) && cleanEmbed ps t

/-- No table match (for the given grammar) starts at any line of `lines`. -/
def tableMatchFree (hdr? sep? : List Char → Option (List Char))
    (bodyLine : List Char → Bool) (lines : List (List Char)) : Bool :=
  (List.range lines.length).all
    (fun k => (tryTableAt hdr? sep? bodyLine (lines.drop k)).isNone)

/-- No fenced-code match starts anywhere: neither at position zero (the `^`
alternative) nor after any newline. -/
def fencedMatchFree (l : List Char) : Bool :=
  (tryFenced l).isNone &&
    (List.range l.length).all (fun k =>
      !(decide (l.get? k = some '\n')) || (tryFenced (l.drop (k + 1))).isNone)

/-- No `wholeList` match starts at any position. -/
def defListMatchFree (l : List Char) : Bool :=
  (List.range l.length).all (fun k => (tryWholeListAt (l.drop k)).isNone)

/-! ## Theorems

The scanners defined by well-founded recursion are unsealed so that concrete
witness computations can be checked by kernel reduction. -/

unseal splitPipesAux sanitizeAux natDigits unhashAux fencedScan tablesScan
unseal termRun weirdChain defTryLens dtChain dtScan ddScan defListScan

/-! ### Generic lemmas about `subst2` -/

theorem subst2_cons_of_not (x y : Char) (rep : List Char) (c : Char)
    (l : List Char) (h : ¬(c = x ∧ l.head? = some y)) :
    subst2 x y rep (c :: l) = c :: subst2 x y rep l := by
  match l with
  | [] => rfl
  | d :: rest =>
    have hcd : ¬(c = x ∧ d = y) := by simpa using h
    simp only [subst2]
    rw [if_neg]
    simpa using hcd

theorem subst2_match (x y : Char) (rep : List Char) (l : List Char) :
    subst2 x y rep (x :: y :: l) = rep ++ subst2 x y rep l := by
  simp [subst2]

theorem hasSubL_cons_false {pat : List Char} {c : Char} {cs : List Char}
    (h : hasSubL pat (c :: cs) = false) :
    pat.isPrefixOf (c :: cs) = false ∧ hasSubL pat cs = false := by
  rw [show hasSubL pat (c :: cs) = (pat.isPrefixOf (c :: cs) || hasSubL pat cs)
    from rfl] at h
  simpa using h

theorem pair_no_match_head {x y c : Char} {cs : List Char}
    (h : List.isPrefixOf [x, y] (c :: cs) = false) : ¬(c = x ∧ cs.head? = some y) := by
  intro hc
  match cs, hc.2 with
  | d :: cs', hd =>
    have hdy : d = y := by simpa using hd
    simp [List.isPrefixOf, hc.1, hdy] at h

theorem subst2_append_of_ne (x y : Char) (rep : List Char) :
    ∀ (m l : List Char), (∀ a ∈ m, a ≠ x) →
      subst2 x y rep (m ++ l) = m ++ subst2 x y rep l
  | [], l, _ => rfl
  | a :: m', l, h => by
    have ha : a ≠ x := h a (List.mem_cons_self a m')
    simp only [List.cons_append]
    rw [subst2_cons_of_not x y rep a (m' ++ l) (by intro hc; exact ha hc.1),
      subst2_append_of_ne x y rep m' l (fun b hb => h b (List.mem_cons_of_mem a hb))]

/-- A nonempty input yields a nonempty output when the replacement is
nonempty. -/
theorem subst2_ne_nil (x y : Char) (rep : List Char) (hrep : rep ≠ [])
    (c : Char) (l : List Char) : subst2 x y rep (c :: l) ≠ [] := by
  match l with
  | [] => simp [subst2]
  | d :: rest =>
    simp only [subst2]
    by_cases hc : c = x ∧ d = y
    · rw [if_pos (by simp [hc.1, hc.2])]
      simp [hrep]
    · rw [if_neg (by simpa using hc)]
      simp

theorem subst2_head? (x y : Char) (rep : List Char) (hrep : rep ≠ [])
    (l : List Char) :
    (subst2 x y rep l).head? = l.head? ∨ (subst2 x y rep l).head? = rep.head? := by
  match l with
  | [] => left; rfl
  | [c] => left; rfl
  | c :: d :: rest =>
    simp only [subst2]
    by_cases hc : c = x ∧ d = y
    · rw [if_pos (by simp [hc.1, hc.2])]
      match rep, hrep with
      | r0 :: rep', _ => right; rfl
    · rw [if_neg (by simpa using hc)]
      left; rfl

/-- Pass-through of `subst2` over a segment with no pattern occurrence whose
last character is not the pattern start. -/
theorem subst2_pass_head (x y : Char) (rep : List Char) :
    ∀ (m B : List Char), hasSubL [x, y] m = false → m.getLast? ≠ some x →
      subst2 x y rep (m ++ B) = m ++ subst2 x y rep B
  | [], _, _, _ => rfl
  | [e], B, _, hlast => by
    have he : e ≠ x := by simpa using hlast
    simp only [List.cons_append, List.nil_append]
    rw [subst2_cons_of_not x y rep e B (by intro hc; exact he hc.1)]
  | e :: f :: m', B, hsub, hlast => by
    have h1 := (hasSubL_cons_false hsub).1
    have h2 := (hasSubL_cons_false hsub).2
    have h3 : (f :: m').getLast? ≠ some x := by
      simpa [List.getLast?] using hlast
    have h4 : ¬(e = x ∧ ((f :: m') ++ B).head? = some y) := by
      intro hc
      exact pair_no_match_head h1 ⟨hc.1, by simpa using hc.2⟩
    simp only [List.cons_append]
    rw [subst2_cons_of_not x y rep e (f :: (m' ++ B)) (by simpa using h4)]
    have := subst2_pass_head x y rep (f :: m') B h2 h3
    simp only [List.cons_append] at this
    rw [this]

/-- Pass-through of `subst2` over an inert segment `m` sitting between two
arbitrary pieces: `m` is nonempty, does not contain the pattern, does not
start with the pattern's second character and does not end with its first. -/
theorem subst2_pass (x y : Char) (rep : List Char) :
    ∀ (A m B : List Char), m ≠ [] → hasSubL [x, y] m = false →
      m.head? ≠ some y → m.getLast? ≠ some x →
      subst2 x y rep (A ++ m ++ B)
        = subst2 x y rep A ++ m ++ subst2 x y rep B
  | [], m, B, _, hsub, _, hlast => by
    simpa using subst2_pass_head x y rep m B hsub hlast
  | [e], m, B, hne, hsub, hhead, hlast => by
    have hm : (m ++ B).head? = m.head? := by
      match m, hne with
      | m0 :: m', _ => rfl
    have h0 : subst2 x y rep (e :: (m ++ B)) = e :: subst2 x y rep (m ++ B) := by
      apply subst2_cons_of_not
      intro hc
      exact hhead (by rw [← hm]; exact hc.2)
    simp only [List.cons_append, List.nil_append]
    simp only [List.cons_append, List.nil_append] at h0
    rw [h0, subst2_pass_head x y rep m B hsub hlast]
    rfl
  | e :: f :: A', m, B, hne, hsub, hhead, hlast => by
    by_cases hc : e = x ∧ f = y
    · obtain ⟨hc1, hc2⟩ := hc
      rw [hc1, hc2]
      simp only [List.cons_append]
      rw [subst2_match, subst2_match]
      have := subst2_pass x y rep A' m B hne hsub hhead hlast
      rw [this]
      simp [List.append_assoc]
    · have h4 : ¬(e = x ∧ (f :: (A' ++ m ++ B)).head? = some y) := by
        intro hcc
        exact hc ⟨hcc.1, by simpa using hcc.2⟩
      simp only [List.cons_append]
      rw [subst2_cons_of_not x y rep e (f :: (A' ++ m ++ B)) (by simpa using h4),
        subst2_cons_of_not x y rep e (f :: A') (by
          intro hcc
          exact hc ⟨hcc.1, by simpa using hcc.2⟩)]
      have := subst2_pass x y rep (f :: A') m B hne hsub hhead hlast
      simp only [List.cons_append] at this
      rw [this]
      rfl

/-- Function `subst2` rewrites a designated occurrence of its pattern, acting
independently on the pieces before and after it. -/
theorem subst2_hom (x y : Char) (rep : List Char) (hxy : x ≠ y) :
    ∀ (A B : List Char),
      subst2 x y rep (A ++ x :: y :: B)
        = subst2 x y rep A ++ rep ++ subst2 x y rep B
  | [], B => by
    simp only [List.nil_append]
    rw [subst2_match]
    rfl
  | [e], B => by
    have h0 : subst2 x y rep (e :: (x :: y :: B))
        = e :: subst2 x y rep (x :: y :: B) := by
      apply subst2_cons_of_not
      intro hc
      exact hxy (by simpa using hc.2)
    simp only [List.cons_append, List.nil_append]
    rw [h0, subst2_match]
    rfl
  | e :: f :: A', B => by
    by_cases hc : e = x ∧ f = y
    · obtain ⟨hc1, hc2⟩ := hc
      rw [hc1, hc2]
      simp only [List.cons_append]
      rw [subst2_match, subst2_match, subst2_hom x y rep hxy A' B]
      simp [List.append_assoc]
    · simp only [List.cons_append]
      rw [subst2_cons_of_not x y rep e (f :: (A' ++ x :: y :: B)) (by
          intro hcc
          exact hc ⟨hcc.1, by simpa using hcc.2⟩),
        subst2_cons_of_not x y rep e (f :: A') (by
          intro hcc
          exact hc ⟨hcc.1, by simpa using hcc.2⟩)]
      have := subst2_hom x y rep hxy (f :: A') B
      simp only [List.cons_append] at this
      rw [this]
      rfl

/-- With no pattern occurrence, `subst2` is the identity. -/
theorem subst2_eq_self (x y : Char) (rep : List Char) :
    ∀ (l : List Char), hasSubL [x, y] l = false → subst2 x y rep l = l
  | [], _ => rfl
  | [c], _ => rfl
  | c :: d :: rest, hsub => by
    have h1 := (hasSubL_cons_false hsub).1
    have h2 := (hasSubL_cons_false hsub).2
    rw [subst2_cons_of_not x y rep c (d :: rest) (pair_no_match_head h1),
      subst2_eq_self x y rep (d :: rest) h2]

/-! ### Order independence of the two escape substitutions -/

theorem subColon_subPipe : ∀ l : List Char, subColon (subPipe l) = substBoth l
  | [] => rfl
  | [c] => rfl
  | c :: d :: rest => by
    by_cases h1 : c = '\\' ∧ d = '|'
    · obtain ⟨e1, e2⟩ := h1
      rw [e1, e2]
      show subColon (subst2 '\\' '|' pipeEnt ('\\' :: '|' :: rest)) = _
      rw [subst2_match]
      show subst2 '\\' ':' colonEnt (pipeEnt ++ subPipe rest) = _
      rw [subst2_append_of_ne '\\' ':' colonEnt pipeEnt (subPipe rest) (by decide)]
      have ih := subColon_subPipe rest
      rw [show subst2 '\\' ':' colonEnt (subPipe rest) = subColon (subPipe rest)
        from rfl, ih]
      show _ = substBoth ('\\' :: '|' :: rest)
      rw [show substBoth ('\\' :: '|' :: rest) = pipeEnt ++ substBoth rest from by
        simp [substBoth]]
    · by_cases h2 : c = '\\' ∧ d = ':'
      · obtain ⟨e1, e2⟩ := h2
        rw [e1, e2]
        have s1 : subPipe ('\\' :: ':' :: rest) = '\\' :: ':' :: subPipe rest := by
          show subst2 '\\' '|' pipeEnt ('\\' :: ':' :: rest) = _
          rw [subst2_cons_of_not '\\' '|' pipeEnt '\\' (':' :: rest) (by simp),
            subst2_cons_of_not '\\' '|' pipeEnt ':' rest (by simp)]
          rfl
        rw [s1]
        show subst2 '\\' ':' colonEnt ('\\' :: ':' :: subPipe rest) = _
        rw [subst2_match]
        have ih := subColon_subPipe rest
        rw [show subst2 '\\' ':' colonEnt (subPipe rest) = subColon (subPipe rest)
          from rfl, ih]
        rw [show substBoth ('\\' :: ':' :: rest) = colonEnt ++ substBoth rest from by
          simp [substBoth]]
      · have s1 : subPipe (c :: d :: rest) = c :: subPipe (d :: rest) := by
          show subst2 '\\' '|' pipeEnt (c :: d :: rest) = _
          rw [subst2_cons_of_not '\\' '|' pipeEnt c (d :: rest) (by
            intro hc
            exact h1 ⟨hc.1, by simpa using hc.2⟩)]
          rfl
        rw [s1]
        have hd : ¬(c = '\\' ∧ (subPipe (d :: rest)).head? = some ':') := by
          intro hcc
          rcases subst2_head? '\\' '|' pipeEnt (by decide) (d :: rest) with hh | hh
          · rw [show (subst2 '\\' '|' pipeEnt (d :: rest)).head?
              = (subPipe (d :: rest)).head? from rfl] at hh
            rw [hh] at hcc
            have : d = ':' := by simpa using hcc.2
            exact h2 ⟨hcc.1, this⟩
          · rw [show (subst2 '\\' '|' pipeEnt (d :: rest)).head?
              = (subPipe (d :: rest)).head? from rfl] at hh
            rw [hh] at hcc
            simp [pipeEnt] at hcc
        show subst2 '\\' ':' colonEnt (c :: subPipe (d :: rest)) = _
        rw [subst2_cons_of_not '\\' ':' colonEnt c (subPipe (d :: rest)) hd]
        have ih := subColon_subPipe (d :: rest)
        rw [show subst2 '\\' ':' colonEnt (subPipe (d :: rest))
          = subColon (subPipe (d :: rest)) from rfl, ih]
        rw [show substBoth (c :: d :: rest) = c :: substBoth (d :: rest) from by
          simp only [substBoth]
          rw [if_neg (by simpa using h1), if_neg (by simpa using h2)]]
termination_by l => l.length

theorem subPipe_subColon : ∀ l : List Char, subPipe (subColon l) = substBoth l
  | [] => rfl
  | [c] => rfl
  | c :: d :: rest => by
    by_cases h2 : c = '\\' ∧ d = ':'
    · obtain ⟨e1, e2⟩ := h2
      rw [e1, e2]
      show subPipe (subst2 '\\' ':' colonEnt ('\\' :: ':' :: rest)) = _
      rw [subst2_match]
      show subst2 '\\' '|' pipeEnt (colonEnt ++ subColon rest) = _
      rw [subst2_append_of_ne '\\' '|' pipeEnt colonEnt (subColon rest) (by decide)]
      have ih := subPipe_subColon rest
      rw [show subst2 '\\' '|' pipeEnt (subColon rest) = subPipe (subColon rest)
        from rfl, ih]
      rw [show substBoth ('\\' :: ':' :: rest) = colonEnt ++ substBoth rest from by
        simp [substBoth]]
    · by_cases h1 : c = '\\' ∧ d = '|'
      · obtain ⟨e1, e2⟩ := h1
        rw [e1, e2]
        have s1 : subColon ('\\' :: '|' :: rest) = '\\' :: '|' :: subColon rest := by
          show subst2 '\\' ':' colonEnt ('\\' :: '|' :: rest) = _
          rw [subst2_cons_of_not '\\' ':' colonEnt '\\' ('|' :: rest) (by simp),
            subst2_cons_of_not '\\' ':' colonEnt '|' rest (by simp)]
          rfl
        rw [s1]
        show subst2 '\\' '|' pipeEnt ('\\' :: '|' :: subColon rest) = _
        rw [subst2_match]
        have ih := subPipe_subColon rest
        rw [show subst2 '\\' '|' pipeEnt (subColon rest) = subPipe (subColon rest)
          from rfl, ih]
        rw [show substBoth ('\\' :: '|' :: rest) = pipeEnt ++ substBoth rest from by
          simp [substBoth]]
      · have s1 : subColon (c :: d :: rest) = c :: subColon (d :: rest) := by
          show subst2 '\\' ':' colonEnt (c :: d :: rest) = _
          rw [subst2_cons_of_not '\\' ':' colonEnt c (d :: rest) (by
            intro hc
            exact h2 ⟨hc.1, by simpa using hc.2⟩)]
          rfl
        rw [s1]
        have hd : ¬(c = '\\' ∧ (subColon (d :: rest)).head? = some '|') := by
          intro hcc
          rcases subst2_head? '\\' ':' colonEnt (by decide) (d :: rest) with hh | hh
          · rw [show (subst2 '\\' ':' colonEnt (d :: rest)).head?
              = (subColon (d :: rest)).head? from rfl] at hh
            rw [hh] at hcc
            have : d = '|' := by simpa using hcc.2
            exact h1 ⟨hcc.1, this⟩
          · rw [show (subst2 '\\' ':' colonEnt (d :: rest)).head?
              = (subColon (d :: rest)).head? from rfl] at hh
            rw [hh] at hcc
            simp [colonEnt] at hcc
        show subst2 '\\' '|' pipeEnt (c :: subColon (d :: rest)) = _
        rw [subst2_cons_of_not '\\' '|' pipeEnt c (subColon (d :: rest)) hd]
        have ih := subPipe_subColon (d :: rest)
        rw [show subst2 '\\' '|' pipeEnt (subColon (d :: rest))
          = subPipe (subColon (d :: rest)) from rfl, ih]
        rw [show substBoth (c :: d :: rest) = c :: substBoth (d :: rest) from by
          simp only [substBoth]
          rw [if_neg (by simpa using h1), if_neg (by simpa using h2)]]
termination_by l => l.length

/-- C7.  The escape normalizer is the identity except on the two escaped
delimiters: both substitution orders agree on every input; an input without
any occurrence of an escaped pipe or an escaped colon is returned unchanged;
and an input containing a designated escaped pipe (resp. escaped colon) is
rewritten to the decimal entity `&#124;` (resp. `&#58;`) there, the
surrounding pieces being processed independently and unchanged otherwise. -/
theorem claimC7_processEscapes (t a b : String) :
    processEscapesRev t = processEscapes t
    ∧ (hasSubL "\\|".data t.data = false → hasSubL "\\:".data t.data = false →
        processEscapes t = t)
    ∧ processEscapes (a ++ "\\|" ++ b)
        = processEscapes a ++ "&#124;" ++ processEscapes b
    ∧ processEscapes (a ++ "\\:" ++ b)
        = processEscapes a ++ "&#58;" ++ processEscapes b := by
  refine ⟨?_, ?_, ?_, ?_⟩
  · apply String.ext
    show subPipe (subColon t.data) = subColon (subPipe t.data)
    rw [subPipe_subColon, subColon_subPipe]
  · intro hp hc
    apply String.ext
    show subColon (subPipe t.data) = t.data
    rw [show subPipe t.data = t.data from
        subst2_eq_self '\\' '|' pipeEnt t.data hp,
      show subColon t.data = t.data from
        subst2_eq_self '\\' ':' colonEnt t.data hc]
  · apply String.ext
    show subColon (subPipe (((a ++ "\\|") ++ b).data)) = _
    have hd : ((a ++ "\\|") ++ b).data = a.data ++ '\\' :: '|' :: b.data := by
      simp [String.data_append]
    rw [hd, show subPipe (a.data ++ '\\' :: '|' :: b.data)
        = subPipe a.data ++ pipeEnt ++ subPipe b.data from
      subst2_hom '\\' '|' pipeEnt (by decide) a.data b.data]
    rw [show subColon (subPipe a.data ++ pipeEnt ++ subPipe b.data)
        = subColon (subPipe a.data) ++ pipeEnt ++ subColon (subPipe b.data) from
      subst2_pass '\\' ':' colonEnt (subPipe a.data) pipeEnt (subPipe b.data)
        (by decide) (by decide) (by decide) (by decide)]
    simp [processEscapes, String.data_append, pipeEnt]
  · apply String.ext
    show subColon (subPipe (((a ++ "\\:") ++ b).data)) = _
    have hd : ((a ++ "\\:") ++ b).data = a.data ++ ['\\', ':'] ++ b.data := by
      simp [String.data_append]
    rw [hd, show subPipe (a.data ++ ['\\', ':'] ++ b.data)
        = subPipe a.data ++ ['\\', ':'] ++ subPipe b.data from
      subst2_pass '\\' '|' pipeEnt a.data ['\\', ':'] b.data
        (by decide) (by decide) (by decide) (by decide)]
    have hsh : subPipe a.data ++ ['\\', ':'] ++ subPipe b.data
        = subPipe a.data ++ '\\' :: ':' :: subPipe b.data := by
      simp
    rw [hsh, show subColon (subPipe a.data ++ '\\' :: ':' :: subPipe b.data)
        = subColon (subPipe a.data) ++ colonEnt ++ subColon (subPipe b.data) from
      subst2_hom '\\' ':' colonEnt (by decide) (subPipe a.data) (subPipe b.data)]
    simp [processEscapes, String.data_append, colonEnt]

/-- Witness for C7 at concrete inputs. -/
theorem claimC7_processEscapes_witness :
    processEscapes "plain text" = "plain text"
    ∧ processEscapes ("A" ++ "\\|" ++ "B")
        = processEscapes "A" ++ "&#124;" ++ processEscapes "B" :=
  ⟨(claimC7_processEscapes "plain text" "A" "B").2.1 (by decide) (by decide),
   (claimC7_processEscapes "plain text" "A" "B").2.2.1⟩

/-! ### C4: alignment classification -/

theorem takeWhile_dash_ne_nil_head {l1 : List Char}
    (h : (l1.takeWhile (fun c => c = '-')).isEmpty = false) :
    l1.head? = some '-' := by
  cases l1 with
  | nil => simp at h
  | cons a r =>
    simp only [List.takeWhile_cons] at h
    by_cases ha : a = '-'
    · simp [ha]
    · simp [ha] at h

theorem splitNl_no_nl : ∀ l : List Char, '\n' ∉ l → splitNlL l = [l]
  | [], _ => rfl
  | c :: cs, h => by
    have hc : c ≠ '\n' := fun hc => h (hc ▸ List.mem_cons_self c cs)
    have ih := splitNl_no_nl cs (fun hm => h (List.mem_cons_of_mem c hm))
    simp only [splitNlL, ih]
    rw [if_neg hc]

theorem align_right_center_excl (l : List Char) :
    ¬(alignRightLine l = true ∧ alignCenterLine l = true) := by
  intro ⟨hr, hc⟩
  simp only [alignRightLine, alignCenterLine, Bool.and_eq_true] at hr hc
  have h1 : (l.dropWhile (fun c => c = ' ')).head? = some '-' :=
    takeWhile_dash_ne_nil_head (by simpa using hr.1.1)
  have h2 : (l.dropWhile (fun c => c = ' ')).head? = some ':' := by
    simpa using hc.1.1.1
  rw [h1] at h2
  simp at h2

theorem align_right_left_excl (l : List Char) :
    ¬(alignRightLine l = true ∧ alignLeftLine l = true) := by
  intro ⟨hr, hc⟩
  simp only [alignRightLine, alignLeftLine, Bool.and_eq_true] at hr hc
  have h1 : (l.dropWhile (fun c => c = ' ')).head? = some '-' :=
    takeWhile_dash_ne_nil_head (by simpa using hr.1.1)
  have h2 : (l.dropWhile (fun c => c = ' ')).head? = some ':' := by
    simpa using hc.1.1
  rw [h1] at h2
  simp at h2

theorem align_center_left_excl (l : List Char) :
    ¬(alignCenterLine l = true ∧ alignLeftLine l = true) := by
  intro ⟨hc, hl⟩
  simp only [alignCenterLine, alignLeftLine, Bool.and_eq_true] at hc hl
  have hcol := hc.1.2
  have hall := hl.2
  cases hD : ((l.dropWhile (fun c => c = ' ')).tail.drop
      (((l.dropWhile (fun c => c = ' ')).tail.takeWhile
        (fun c => c = '-')).length)) with
  | nil => rw [hD] at hcol; simp at hcol
  | cons b r2 =>
    rw [hD] at hcol hall
    have hb : b = ':' := by simpa using hcol
    have hb2 : b = ' ' := by
      have := hall
      simp at this
      exact this.1
    rw [hb] at hb2
    simp at hb2

theorem dashOnly_not_right (l : List Char) (h : dashOnlyLine l = true) :
    alignRightLine l = false := by
  by_contra hr
  rw [Bool.not_eq_false] at hr
  simp only [alignRightLine, dashOnlyLine, Bool.and_eq_true] at hr h
  have hcol := hr.1.2
  have hall := h.2
  cases hD : ((l.dropWhile (fun c => c = ' ')).drop
      (((l.dropWhile (fun c => c = ' ')).takeWhile
        (fun c => c = '-')).length)) with
  | nil => rw [hD] at hcol; simp at hcol
  | cons b r2 =>
    rw [hD] at hcol hall
    have hb : b = ':' := by simpa using hcol
    have hb2 : b = ' ' := by
      have := hall
      simp at this
      exact this.1
    rw [hb] at hb2
    simp at hb2

theorem dashOnly_not_center (l : List Char) (h : dashOnlyLine l = true) :
    alignCenterLine l = false := by
  by_contra hr
  rw [Bool.not_eq_false] at hr
  simp only [alignCenterLine, dashOnlyLine, Bool.and_eq_true] at hr h
  have h1 : (l.dropWhile (fun c => c = ' ')).head? = some '-' :=
    takeWhile_dash_ne_nil_head (by simpa using h.1)
  have h2 : (l.dropWhile (fun c => c = ' ')).head? = some ':' := by
    simpa using hr.1.1.1
  rw [h1] at h2
  simp at h2

theorem dashOnly_not_left (l : List Char) (h : dashOnlyLine l = true) :
    alignLeftLine l = false := by
  by_contra hr
  rw [Bool.not_eq_false] at hr
  simp only [alignLeftLine, dashOnlyLine, Bool.and_eq_true] at hr h
  have h1 : (l.dropWhile (fun c => c = ' ')).head? = some '-' :=
    takeWhile_dash_ne_nil_head (by simpa using h.1)
  have h2 : (l.dropWhile (fun c => c = ' ')).head? = some ':' := by
    simpa using hr.1.1
  rw [h1] at h2
  simp at h2

/-- C4.  On a (newline-free) separator token, alignment classification is a
total function with exactly the four outcomes, the three decorated shapes
are mutually exclusive and map to their `text-align` styles, any other token
maps to the empty style, and in particular a plain dash token (`-+`, with
optional surrounding spaces) maps to the empty style. -/
theorem claimC4_alignClassification (spec : List Char) (hnl : '\n' ∉ spec) :
    (alignOf spec = " style=\"text-align:right;\""
      ∨ alignOf spec = " style=\"text-align:center;\""
      ∨ alignOf spec = " style=\"text-align:left;\""
      ∨ alignOf spec = "")
    ∧ (alignRightLine spec = true → alignOf spec = " style=\"text-align:right;\"")
    ∧ (alignCenterLine spec = true → alignOf spec = " style=\"text-align:center;\"")
    ∧ (alignLeftLine spec = true → alignOf spec = " style=\"text-align:left;\"")
    ∧ (alignRightLine spec = false → alignCenterLine spec = false →
        alignLeftLine spec = false → alignOf spec = "")
    ∧ ¬(alignRightLine spec = true ∧ alignCenterLine spec = true)
    ∧ ¬(alignRightLine spec = true ∧ alignLeftLine spec = true)
    ∧ ¬(alignCenterLine spec = true ∧ alignLeftLine spec = true)
    ∧ (dashOnlyLine spec = true → alignOf spec = "") := by
  have hsplit : splitNlL spec = [spec] := splitNl_no_nl spec hnl
  have hany : ∀ p : List Char → Bool, (splitNlL spec).any p = p spec := by
    intro p
    rw [hsplit]
    simp
  refine ⟨?_, ?_, ?_, ?_, ?_, align_right_center_excl spec,
    align_right_left_excl spec, align_center_left_excl spec, ?_⟩
  · unfold alignOf
    rw [hany, hany, hany]
    by_cases h1 : alignRightLine spec = true
    · left; simp [h1]
    · by_cases h2 : alignCenterLine spec = true
      · right; left; simp [h1, h2]
      · by_cases h3 : alignLeftLine spec = true
        · right; right; left; simp [h1, h2, h3]
        · right; right; right; simp [h1, h2, h3]
  · intro h1
    unfold alignOf
    rw [hany]
    simp [h1]
  · intro h2
    unfold alignOf
    rw [hany, hany]
    have h1 : alignRightLine spec = false := by
      by_contra hr
      rw [Bool.not_eq_false] at hr
      exact align_right_center_excl spec ⟨hr, h2⟩
    simp [h1, h2]
  · intro h3
    unfold alignOf
    rw [hany, hany, hany]
    have h1 : alignRightLine spec = false := by
      by_contra hr
      rw [Bool.not_eq_false] at hr
      exact align_right_left_excl spec ⟨hr, h3⟩
    have h2 : alignCenterLine spec = false := by
      by_contra hr
      rw [Bool.not_eq_false] at hr
      exact align_center_left_excl spec ⟨hr, h3⟩
    simp [h1, h2, h3]
  · intro h1 h2 h3
    unfold alignOf
    rw [hany, hany, hany]
    simp [h1, h2, h3]
  · intro hdash
    unfold alignOf
    rw [hany, hany, hany]
    simp [dashOnly_not_right spec hdash, dashOnly_not_center spec hdash,
      dashOnly_not_left spec hdash]

/-- Witness for C4 at the four concrete token shapes. -/
theorem claimC4_alignClassification_witness :
    alignOf "-:".data = " style=\"text-align:right;\""
    ∧ alignOf ":-:".data = " style=\"text-align:center;\""
    ∧ alignOf ":-".data = " style=\"text-align:left;\""
    ∧ alignOf "--".data = "" :=
  ⟨(claimC4_alignClassification "-:".data (by decide)).2.1 (by decide),
   (claimC4_alignClassification ":-:".data (by decide)).2.2.1 (by decide),
   (claimC4_alignClassification ":-".data (by decide)).2.2.2.1 (by decide),
   (claimC4_alignClassification "--".data (by decide)).2.2.2.2.2.2.2.2 (by decide)⟩

/-! ### C2: table cell counts -/

theorem range_map_getD {α : Type} (d : α) :
    ∀ (l : List α) (n : Nat),
      (List.range n).map (fun j => l.getD j d)
        = l.take n ++ List.replicate (n - l.length) d
  | [], n => by
    simp [List.map_const]
  | a :: l', n => by
    cases n with
    | zero => simp
    | succ m =>
      rw [List.range_succ_eq_map]
      simp only [List.map_cons, List.map_map]
      have : ∀ j, (a :: l').getD (j + 1) d = l'.getD j d := by
        intro j
        simp [List.getD]
      rw [show (List.range m).map ((fun j => (a :: l').getD j d) ∘ (· + 1))
          = (List.range m).map (fun j => l'.getD j d) from
        List.map_congr_left (fun j _ => this j)]
      rw [range_map_getD d l' m]
      simp [List.getD]

theorem filterMap_skip_length {α β : Type} (p : α → Bool) (g : α → β) :
    ∀ rows : List α,
      (rows.filterMap (fun r => if p r then none else some (g r))).length
        = (rows.filter (fun r => !p r)).length
  | [] => rfl
  | r :: rows' => by
    by_cases hp : p r
    · simp [List.filterMap_cons, List.filter_cons, hp,
        filterMap_skip_length p g rows']
    · simp [List.filterMap_cons, List.filter_cons, hp,
        filterMap_skip_length p g rows']

/-- The padded cell-text list emitted for one body row: the loop at lines
292-297 reads indices `0..colCount-1` of the padded cell array. -/
theorem row_cells_take_pad (colCount : Nat) (row : List Char) :
    (List.range colCount).map (fun j => (rowCellsPadded colCount row).getD j [])
      = (splitPipesL row).take colCount
        ++ List.replicate (colCount - (splitPipesL row).length) [] := by
  have hpad : rowCellsPadded colCount row
      = splitPipesL row
        ++ List.replicate (colCount - (splitPipesL row).length) [] := rfl
  rw [hpad, range_map_getD]
  rcases Nat.le_total colCount (splitPipesL row).length with hle | hle
  · have h0 : colCount - (splitPipesL row).length = 0 := Nat.sub_eq_zero_of_le hle
    rw [h0]
    simp
    omega
  · have hlen : (splitPipesL row ++ List.replicate
        (colCount - (splitPipesL row).length) ([] : List Char)).length = colCount := by
      simp
      omega
    rw [List.take_of_length_le (le_of_eq hlen), hlen, Nat.sub_self,
      List.take_of_length_le hle]
    simp

/-- C2.  For any table block captures: the rendered header row has exactly
`N` header cells where `N` is the number of cells the cleaned header splits
into; every non-blank body line is rendered as a row of exactly `N` data
cells whose texts are the line's cells truncated to `N` and right-padded
with empty cells; a blank (whitespace-only) body line contributes no row;
and the table html is exactly the assembly of those pieces. -/
theorem claimC2_tableCellCounts (conv : String → String)
    (cls header separator body : String) :
    (tableThs conv (tableAligns separator)
        (splitPipesL (cleanCapFirst header))).length
      = (splitPipesL (cleanCapFirst header)).length
    ∧ (∀ r ∈ splitNlL (cleanCapAll body), r.all isSpaceJS = false →
        rowHtml conv (tableAligns separator)
            (splitPipesL (cleanCapFirst header)).length r
          = "<tr>\n"
            ++ String.join ((List.range (splitPipesL (cleanCapFirst header)).length).map
                 (tdCell conv (tableAligns separator)
                   (rowCellsPadded (splitPipesL (cleanCapFirst header)).length r)))
            ++ "</tr>\n"
        ∧ ((List.range (splitPipesL (cleanCapFirst header)).length).map
             (fun j => (rowCellsPadded (splitPipesL (cleanCapFirst header)).length r).getD j [])).length
            = (splitPipesL (cleanCapFirst header)).length
        ∧ (List.range (splitPipesL (cleanCapFirst header)).length).map
             (fun j => (rowCellsPadded (splitPipesL (cleanCapFirst header)).length r).getD j [])
            = (splitPipesL r).take (splitPipesL (cleanCapFirst header)).length
              ++ List.replicate
                  ((splitPipesL (cleanCapFirst header)).length - (splitPipesL r).length) [])
    ∧ (tableRows conv (tableAligns separator)
          (splitPipesL (cleanCapFirst header)).length (splitNlL (cleanCapAll body))).length
        = ((splitNlL (cleanCapAll body)).filter (fun r => !r.all isSpaceJS)).length
    ∧ tableHtml conv cls header separator body
        = "<table" ++ (if cls ≠ "" then " class=\"" ++ cls ++ "\"" else "")
          ++ ">\n<thead>\n<tr>\n"
          ++ String.join (tableThs conv (tableAligns separator)
               (splitPipesL (cleanCapFirst header)))
          ++ "</tr>\n</thead>\n"
          ++ String.join (tableRows conv (tableAligns separator)
               (splitPipesL (cleanCapFirst header)).length (splitNlL (cleanCapAll body)))
          ++ "</table>\n" := by
  refine ⟨?_, ?_, ?_, ?_⟩
  · simp [tableThs]
  · intro r _ _
    refine ⟨rfl, ?_, row_cells_take_pad _ r⟩
    simp
  · exact filterMap_skip_length (fun r => r.all isSpaceJS)
      (rowHtml conv (tableAligns separator)
        (splitPipesL (cleanCapFirst header)).length)
      (splitNlL (cleanCapAll body))
  · rfl

/-- Witness for C2 on a concrete three-column table block with a short row,
a long row and a blank row. -/
theorem claimC2_tableCellCounts_witness :
    (tableThs id (tableAligns "|:-|-:|") (splitPipesL (cleanCapFirst "| a | b | c |"))).length = 3
    ∧ rowHtml id (tableAligns "|:-|-:|") 3 "x".data
      = "<tr>\n"
        ++ String.join ((List.range 3).map
             (tdCell id (tableAligns "|:-|-:|") (rowCellsPadded 3 "x".data)))
        ++ "</tr>\n"
    ∧ (List.range 3).map (fun j => (rowCellsPadded 3 "x|y|z|w".data).getD j [])
      = (splitPipesL "x|y|z|w".data).take 3 ++ List.replicate (3 - (splitPipesL "x|y|z|w".data).length) [] := by
  have h1 := (claimC2_tableCellCounts id "" "| a | b | c |" "|:-|-:|" "x\n  \nx|y|z|w\n").1
  have h2 := (claimC2_tableCellCounts id "" "| a | b | c |" "|:-|-:|" "x\n  \nx|y|z|w\n").2.1
    "x".data (by decide) (by decide)
  have h3 := (claimC2_tableCellCounts id "" "| a | b | c |" "|:-|-:|" "x\n  \nx|y|z|w\n").2.1
    "x|y|z|w".data (by decide) (by decide)
  refine ⟨?_, ?_, ?_⟩
  · rw [h1]; decide
  · have hN : (splitPipesL (cleanCapFirst "| a | b | c |")).length = 3 := by decide
    rw [← hN]
    exact h2.1
  · have hN : (splitPipesL (cleanCapFirst "| a | b | c |")).length = 3 := by decide
    rw [← hN]
    exact h3.2.2

/-! ### C10: the span renderer's whitelist filter -/

theorem char_toLower_eq_gt {c : Char} (h : Char.toLower c = '>') : c = '>' := by
  rw [Char.toLower] at h
  by_cases hc : c.toNat ≥ 65 ∧ c.toNat ≤ 90
  · exfalso
    rw [if_pos hc] at h
    have hv : (c.toNat + 32).isValidChar := Or.inl (by omega)
    have h1 : (Char.ofNat (c.toNat + 32)).toNat = c.toNat + 32 := by
      rw [Char.ofNat, dif_pos hv]
      rfl
    rw [h] at h1
    have h2 : ('>' : Char).toNat = 62 := rfl
    omega
  · rwa [if_neg hc] at h

theorem closesTag_mem : ∀ x : List Char, closesTag x = true → '>' ∈ x
  | [c], h => by
    have : c = '>' := by simpa [closesTag] using h
    simp [this]
  | c :: d :: rest, h => by
    have h3 := h
    rw [show closesTag (c :: d :: rest)
      = (decide (c ≠ '>') && closesTag (d :: rest)) from rfl] at h3
    simp only [Bool.and_eq_true] at h3
    exact List.mem_cons_of_mem c (closesTag_mem (d :: rest) h3.2)

theorem mem_map_toLower_gt {mid : List Char}
    (h : '>' ∈ mid.map Char.toLower) : '>' ∈ mid := by
  rcases List.mem_map.mp h with ⟨c, hc, hlow⟩
  rw [char_toLower_eq_gt hlow] at hc
  exact hc

/-- An unclosed candidate tag (no `'>'` inside) never matches the whitelist:
both alternatives of the `inlineTags` regex require a closing `'>'`. -/
theorem inlineTags_unclosed (mid : List Char) (hmid : '>' ∉ mid) :
    inlineTags ⟨'<' :: mid⟩ = false := by
  by_contra hb
  rw [Bool.not_eq_false] at hb
  unfold inlineTags at hb
  have hdata : (String.mk ('<' :: mid)).data.map Char.toLower
      = '<' :: mid.map Char.toLower := by
    simp [show Char.toLower '<' = '<' from rfl]
  rw [hdata] at hb
  have hgt : '>' ∉ mid.map Char.toLower := fun hm => hmid (mem_map_toLower_gt hm)
  rcases Bool.or_eq_true_iff.mp hb with hnamed | hbr
  · rw [show matchTagNamed ('<' :: mid.map Char.toLower)
        = inlineTagNames.any (fun n =>
            n.data.isPrefixOf (if (mid.map Char.toLower).head? = some '/'
              then (mid.map Char.toLower).tail else mid.map Char.toLower)
            && closesTag ((if (mid.map Char.toLower).head? = some '/'
              then (mid.map Char.toLower).tail else mid.map Char.toLower).drop
                n.length)) from rfl] at hnamed
    rcases List.any_eq_true.mp hnamed with ⟨n, _, hn⟩
    rw [Bool.and_eq_true] at hn
    have hmem := closesTag_mem _ hn.2
    have hmem2 : '>' ∈ (if (mid.map Char.toLower).head? = some '/'
        then (mid.map Char.toLower).tail else mid.map Char.toLower) :=
      List.drop_subset _ _ hmem
    by_cases hsl : (mid.map Char.toLower).head? = some '/'
    · rw [if_pos hsl] at hmem2
      exact hgt (List.mem_of_mem_tail hmem2)
    · rw [if_neg hsl] at hmem2
      exact hgt hmem2
  · unfold matchTagBr at hbr
    simp only [Bool.and_eq_true, decide_eq_true_eq] at hbr
    have h4 := hbr.2
    have hmem : '>' ∈ ('<' :: mid.map Char.toLower).drop 3 := by
      generalize ('<' :: mid.map Char.toLower).drop 3 = r1 at h4
      rcases r1 with _ | ⟨c0, r1t⟩
      · simp at h4
      · simp only [List.head?_cons] at h4
        by_cases hsp : isSpaceJS c0 = true
        · rw [if_pos hsp] at h4
          simp only [List.tail_cons] at h4
          by_cases hsl2 : r1t.head? = some '/'
          · rw [if_pos hsl2] at h4
            have : '>' ∈ r1t.tail := by rw [h4]; simp
            exact List.mem_cons_of_mem c0 (List.mem_of_mem_tail this)
          · rw [if_neg hsl2] at h4
            have : '>' ∈ r1t := by rw [h4]; simp
            exact List.mem_cons_of_mem c0 this
        · rw [if_neg hsp] at h4
          by_cases hsl2 : (c0 :: r1t).head? = some '/'
          · rw [if_pos hsl2] at h4
            have : '>' ∈ (c0 :: r1t).tail := by rw [h4]; simp
            exact List.mem_of_mem_tail this
          · rw [if_neg hsl2] at h4
            rw [h4]; simp
    have : ('<' :: mid.map Char.toLower).drop 3 = (mid.map Char.toLower).drop 2 :=
      rfl
    rw [this] at hmem
    exact hgt (List.drop_subset _ _ hmem)

theorem takeWhile_append_stop (p : Char → Bool) :
    ∀ (m : List Char) (b : Char) (rest : List Char),
      (∀ c ∈ m, p c = true) → p b = false →
      (m ++ b :: rest).takeWhile p = m
  | [], b, rest, _, hb => by simp [List.takeWhile_cons, hb]
  | a :: m', b, rest, hm, hb => by
    have ha : p a = true := hm a (List.mem_cons_self a m')
    simp only [List.cons_append, List.takeWhile_cons, ha, if_true]
    rw [takeWhile_append_stop p m' b rest
      (fun c hc => hm c (List.mem_cons_of_mem a hc)) hb]

theorem takeWhile_all (p : Char → Bool) :
    ∀ (m : List Char), (∀ c ∈ m, p c = true) → m.takeWhile p = m
  | [], _ => rfl
  | a :: m', hm => by
    have ha : p a = true := hm a (List.mem_cons_self a m')
    simp only [List.takeWhile_cons, ha, if_true]
    rw [takeWhile_all p m' (fun c hc => hm c (List.mem_cons_of_mem a hc))]

/-- The scanner ignores a chunk with no `'<'`. -/
theorem sanitizeAux_pass (wl : String → Bool) :
    ∀ (pre rest : List Char), (∀ c ∈ pre, c ≠ '<') →
      sanitizeAux wl (pre ++ rest) = pre ++ sanitizeAux wl rest
  | [], _, _ => rfl
  | a :: pre', rest, h => by
    have ha : a ≠ '<' := h a (List.mem_cons_self a pre')
    rw [List.cons_append, show sanitizeAux wl (a :: (pre' ++ rest))
      = a :: sanitizeAux wl (pre' ++ rest) from by
        rw [sanitizeAux]
        simp [ha],
      sanitizeAux_pass wl pre' rest (fun c hc => h c (List.mem_cons_of_mem a hc))]
    rfl

/-- C10.  Every `'<'` opens a candidate tag running to the next `'>'`
(inclusive) or to the end of the input: a closed candidate is kept exactly
when it matches the inline whitelist and scanning resumes after it, while an
unclosed trailing candidate never matches the whitelist, so a stray `'<'`
deletes everything from it to the end of the input. -/
theorem claimC10_sanitizeUnclosed (pre mid rest : String)
    (hpre : '<' ∉ pre.data) (hmid : '>' ∉ mid.data) :
    sanitizeHtml (pre ++ "<" ++ mid) inlineTags = pre
    ∧ sanitizeHtml (pre ++ "<" ++ mid ++ ">" ++ rest) inlineTags
      = pre ++ (if inlineTags ("<" ++ mid ++ ">") = true
          then "<" ++ mid ++ ">" else "")
        ++ sanitizeHtml rest inlineTags := by
  constructor
  · apply String.ext
    show sanitizeAux inlineTags (((pre ++ "<") ++ mid).data) = pre.data
    have hd : ((pre ++ "<") ++ mid).data = pre.data ++ '<' :: mid.data := by
      simp [String.data_append]
    rw [hd, sanitizeAux_pass inlineTags pre.data ('<' :: mid.data)
      (fun c hc hlt => hpre (hlt ▸ hc))]
    have hstep : sanitizeAux inlineTags ('<' :: mid.data)
        = if inlineTags ⟨'<' :: mid.data⟩ = true then '<' :: mid.data else [] := by
      rw [sanitizeAux]
      have htw : mid.data.takeWhile (fun d => d ≠ '>') = mid.data :=
        takeWhile_all _ mid.data (fun c hc => by
          simp
          intro hgt
          exact hmid (hgt ▸ hc))
      simp only [htw, if_pos rfl, Nat.lt_irrefl, if_neg (Nat.lt_irrefl _)]
      simp
    rw [hstep, if_neg (by simp [inlineTags_unclosed mid.data hmid])]
    simp
  · apply String.ext
    show sanitizeAux inlineTags ((((pre ++ "<") ++ mid) ++ ">") ++ rest).data = _
    have hd : ((((pre ++ "<") ++ mid) ++ ">") ++ rest).data
        = pre.data ++ '<' :: (mid.data ++ '>' :: rest.data) := by
      simp [String.data_append]
    rw [hd, sanitizeAux_pass inlineTags pre.data _
      (fun c hc hlt => hpre (hlt ▸ hc))]
    have htw : (mid.data ++ '>' :: rest.data).takeWhile (fun d => d ≠ '>')
        = mid.data :=
      takeWhile_append_stop _ mid.data '>' rest.data
        (fun c hc => by
          simp
          intro hgt
          exact hmid (hgt ▸ hc))
        (by simp)
    have hlen : mid.data.length < (mid.data ++ '>' :: rest.data).length := by
      simp
    have hdrop : (mid.data ++ '>' :: rest.data).drop (mid.data.length + 1)
        = rest.data := by
      rw [show mid.data ++ '>' :: rest.data = (mid.data ++ ['>']) ++ rest.data
        from by simp,
        show mid.data.length + 1 = (mid.data ++ ['>']).length from by simp]
      exact List.drop_left (mid.data ++ ['>']) rest.data
    have hstep : sanitizeAux inlineTags ('<' :: (mid.data ++ '>' :: rest.data))
        = (if inlineTags ⟨'<' :: (mid.data ++ ['>'])⟩ = true
            then '<' :: (mid.data ++ ['>']) else [])
          ++ sanitizeAux inlineTags rest.data := by
      rw [sanitizeAux]
      simp only [htw, hdrop, if_pos rfl, hlen, if_pos hlen]
      simp
    rw [hstep]
    have htag : ("<" ++ mid ++ ">" : String) = ⟨'<' :: (mid.data ++ ['>'])⟩ :=
      String.ext (by simp [String.data_append])
    rw [htag]
    by_cases hw : inlineTags ⟨'<' :: (mid.data ++ ['>'])⟩ = true <;>
      simp [hw, sanitizeHtml, String.data_append]

/-- Witness for C10: a stray `'<'` swallows the tail; a kept inline tag and a
deleted block tag around ordinary text. -/
theorem claimC10_sanitizeUnclosed_witness :
    sanitizeHtml ("ab" ++ "<" ++ "x trailing") inlineTags = "ab"
    ∧ sanitizeHtml ("ab" ++ "<" ++ "em" ++ ">" ++ "t") inlineTags
      = "ab" ++ (if inlineTags ("<" ++ "em" ++ ">") = true
          then "<" ++ "em" ++ ">" else "") ++ sanitizeHtml "t" inlineTags :=
  ⟨(claimC10_sanitizeUnclosed "ab" "x trailing" "" (by decide) (by decide)).1,
   (claimC10_sanitizeUnclosed "ab" "em" "t" (by decide) (by decide)).2⟩

/-! ### C1, C5: the hash-block store and its restoration -/

theorem digitChar_isDigit {n : Nat} (h : n < 10) :
    (Nat.digitChar n).isDigit = true := by
  interval_cases n <;> decide

theorem digitChar_val {n : Nat} (h : n < 10) :
    (Nat.digitChar n).toNat - 48 = n := by
  interval_cases n <;> decide

theorem natDigits_ne_nil (n : Nat) : natDigits n ≠ [] := by
  rw [natDigits]
  split <;> simp

theorem natDigits_digits : ∀ n : Nat, ∀ c ∈ natDigits n, c.isDigit = true := by
  intro n
  induction n using Nat.strong_induction_on with
  | _ n ih =>
    intro c hc
    rw [natDigits] at hc
    split at hc
    · rename_i h
      rw [List.mem_singleton] at hc
      rw [hc]
      exact digitChar_isDigit h
    · rename_i h
      rcases List.mem_append.mp hc with hm | hm
      · exact ih (n / 10) (Nat.div_lt_self (by omega) (by omega)) c hm
      · rw [List.mem_singleton] at hm
        rw [hm]
        exact digitChar_isDigit (Nat.mod_lt n (by omega))

theorem digitsVal_append_one (A : List Char) (c : Char) :
    digitsVal (A ++ [c]) = digitsVal A * 10 + (c.toNat - 48) := by
  simp [digitsVal, List.foldl_append]

theorem digitsVal_natDigits : ∀ n : Nat, digitsVal (natDigits n) = n := by
  intro n
  induction n using Nat.strong_induction_on with
  | _ n ih =>
    rw [natDigits]
    split
    · rename_i h
      show digitsVal [Nat.digitChar n] = n
      have : digitsVal [Nat.digitChar n] = (Nat.digitChar n).toNat - 48 := by
        simp [digitsVal]
      rw [this, digitChar_val h]
    · rename_i h
      rw [digitsVal_append_one,
        ih (n / 10) (Nat.div_lt_self (by omega) (by omega)),
        digitChar_val (Nat.mod_lt n (by omega))]
      omega

/-- The placeholder decomposed into explicit characters. -/
theorem placeholder_data (i : Nat) (rest : List Char) :
    (placeholder i).data ++ rest
      = '<' :: 'p' :: '>' :: '~' :: 'X'
        :: (natDigits i ++ ('X' :: '<' :: '/' :: 'p' :: '>' :: rest)) := by
  simp [placeholder, String.data_append]

theorem placeholder_length (i : Nat) :
    (placeholder i).data.length = 10 + (natDigits i).length := by
  simp [placeholder, String.data_append]
  omega

/-- The placeholder matcher fires on a placeholder, parsing back the index
and consuming exactly the placeholder. -/
theorem unhashMatch_ph (i : Nat) (rest : List Char) :
    unhashMatch ((placeholder i).data ++ rest)
      = some (i, (placeholder i).data.length) := by
  rw [placeholder_data]
  rw [show unhashMatch ('<' :: 'p' :: '>' :: '~' :: 'X'
      :: (natDigits i ++ ('X' :: '<' :: '/' :: 'p' :: '>' :: rest)))
    = (let ds := (natDigits i ++ ('X' :: '<' :: '/' :: 'p' :: '>' :: rest)).takeWhile
        Char.isDigit
       if ds.isEmpty then none
       else
        match (natDigits i ++ ('X' :: '<' :: '/' :: 'p' :: '>' :: rest)).drop
            ds.length with
        | 'X' :: '<' :: '/' :: 'p' :: '>' :: _ => some (digitsVal ds, 5 + ds.length + 5)
        | _ => none) from rfl]
  have hds : (natDigits i ++ ('X' :: '<' :: '/' :: 'p' :: '>' :: rest)).takeWhile
      Char.isDigit = natDigits i :=
    takeWhile_append_stop Char.isDigit (natDigits i) 'X' _
      (natDigits_digits i) (by decide)
  simp only [hds]
  rw [if_neg (by simp [natDigits_ne_nil i])]
  rw [List.drop_left]
  simp only [digitsVal_natDigits]
  rw [placeholder_length]
  have : 5 + (natDigits i).length + 5 = 10 + (natDigits i).length := by omega
  rw [this]

/-- Scanner pass-through over a segment in which no match starts. -/
theorem unhashAux_pass (blocks : List String) :
    ∀ (s rest : List Char),
      (∀ k, k < s.length → unhashMatch (s.drop k ++ rest) = none) →
      unhashAux blocks (s ++ rest) = s ++ unhashAux blocks rest
  | [], _, _ => rfl
  | c :: s', rest, h => by
    have h0 := h 0 (by simp)
    simp only [List.drop_zero] at h0
    have hstep : unhashAux blocks (c :: (s' ++ rest))
        = c :: unhashAux blocks (s' ++ rest) := by
      rw [unhashAux, show unhashMatch (c :: (s' ++ rest)) = none from by
        simpa using h0]
    rw [List.cons_append, hstep,
      unhashAux_pass blocks s' rest (fun k hk => by
        have := h (k + 1) (by simpa using hk)
        simpa using this)]
    rfl

/-- The scanner substitutes the replacement at a placeholder and resumes
right after it. -/
theorem unhashAux_ph (blocks : List String) (i : Nat) (rest : List Char) :
    unhashAux blocks ((placeholder i).data ++ rest)
      = unhashRep blocks i ++ unhashAux blocks rest := by
  have hm := unhashMatch_ph i rest
  rw [placeholder_data] at hm ⊢
  rw [show unhashAux blocks ('<' :: ('p' :: '>' :: '~' :: 'X'
      :: (natDigits i ++ ('X' :: '<' :: '/' :: 'p' :: '>' :: rest))))
    = match unhashMatch ('<' :: ('p' :: '>' :: '~' :: 'X'
        :: (natDigits i ++ ('X' :: '<' :: '/' :: 'p' :: '>' :: rest)))) with
      | some (key, used) =>
        unhashRep blocks key ++ unhashAux blocks
          (('p' :: '>' :: '~' :: 'X'
            :: (natDigits i ++ ('X' :: '<' :: '/' :: 'p' :: '>' :: rest))).drop
              (used - 1))
      | none => '<' :: unhashAux blocks ('p' :: '>' :: '~' :: 'X'
          :: (natDigits i ++ ('X' :: '<' :: '/' :: 'p' :: '>' :: rest))) from by
      rw [unhashAux]]
  rw [hm]
  show unhashRep blocks i ++ unhashAux blocks
      (('p' :: '>' :: '~' :: 'X'
        :: (natDigits i ++ ('X' :: '<' :: '/' :: 'p' :: '>' :: rest))).drop
          ((placeholder i).data.length - 1)) = _
  have hB : ('p' :: '>' :: '~' :: 'X'
      :: (natDigits i ++ ('X' :: '<' :: '/' :: 'p' :: '>' :: rest)))
      = ('p' :: '>' :: '~' :: 'X' :: (natDigits i ++ ['X', '<', '/', 'p', '>']))
        ++ rest := by
    simp
  have hlen : ('p' :: '>' :: '~' :: 'X'
      :: (natDigits i ++ ['X', '<', '/', 'p', '>'])).length
      = (placeholder i).data.length - 1 := by
    rw [placeholder_length]
    simp
    omega
  rw [show (('p' :: '>' :: '~' :: 'X'
      :: (natDigits i ++ ('X' :: '<' :: '/' :: 'p' :: '>' :: rest))).drop
        ((placeholder i).data.length - 1)) = rest from by
    rw [hB, ← hlen]
    exact List.drop_left _ rest]

theorem cleanAt_none {s rest : List Char} (h : cleanAt s rest = true) :
    ∀ k, k < s.length → unhashMatch (s.drop k ++ rest) = none := by
  intro k hk
  unfold cleanAt at h
  rw [List.all_eq_true] at h
  have := h k (List.mem_range.mpr hk)
  simpa [Option.isNone_iff_eq_none] using this

theorem unhashAux_embed (blocks : List String) :
    ∀ (ps : List (List Char × Nat)) (t : List Char),
      cleanEmbed ps t = true →
      unhashAux blocks (embedText ps t) = restoredText blocks ps t
  | [], t, h => by
    have hc : cleanAt t [] = true := by simpa [cleanEmbed] using h
    have hp := unhashAux_pass blocks t [] (cleanAt_none hc)
    have h2 : unhashAux blocks ([] : List Char) = [] := rfl
    rw [h2] at hp
    show unhashAux blocks t = t
    simpa using hp
  | (s, i) :: ps, t, h => by
    unfold cleanEmbed at h
    rw [Bool.and_eq_true] at h
    show unhashAux blocks (s ++ (placeholder i).data ++ embedText ps t) = _
    rw [List.append_assoc,
      unhashAux_pass blocks s ((placeholder i).data ++ embedText ps t)
        (cleanAt_none h.1),
      unhashAux_ph blocks i (embedText ps t),
      unhashAux_embed blocks ps t h.2]
    show _ = s ++ unhashRep blocks i ++ restoredText blocks ps t
    simp [List.append_assoc]

/-- C1 (amended).  The store returns placeholders embedding the next 0-based
index; for any text interleaving clean surrounding segments with stored
placeholders, restoration substitutes every placeholder in place with its
stored fragment verbatim (`unhashRep`, which is the stored block whenever
the index is in range); restoration is idempotent on any text in which no
placeholder match remains (in particular on any restored text free of
residual markers); and the session-ending `finishConversion` leaves the
store empty, as does the session-starting reset in `doConversion`. -/
theorem claimC1_hashRoundTrip (e : Extra) (block : String)
    (blocks : List String) (ps : List (List Char × Nat)) (t : List Char)
    (ts : List Transformation) (text : String)
    (hclean : cleanEmbed ps t = true) :
    (hashExtraBlock e block).1 = placeholder e.hashBlocks.length
    ∧ (hashExtraBlock e block).2.hashBlocks = e.hashBlocks ++ [block]
    ∧ unhashAux blocks (embedText ps t) = restoredText blocks ps t
    ∧ (∀ u : List Char, cleanAt u [] = true → unhashAux blocks u = u)
    ∧ (finishConversion e text).2.hashBlocks = []
    ∧ (doConversion e ts text).2.hashBlocks
        = ((ts.foldl (fun (acc : String × Extra) tr =>
            applyTransformation acc.2 tr acc.1)
            (processEscapes text, { e with hashBlocks := [] }))).2.hashBlocks := by
  refine ⟨rfl, rfl, unhashAux_embed blocks ps t hclean, ?_, rfl, rfl⟩
  intro u hu
  have hp := unhashAux_pass blocks u [] (cleanAt_none hu)
  have h2 : unhashAux blocks ([] : List Char) = [] := rfl
  rw [h2] at hp
  simpa using hp

/-- Witness for C1 (amended) at a concrete two-block session. -/
theorem claimC1_hashRoundTrip_witness :
    unhashAux ["<em>x</em>", "<pre>y</pre>"]
        (embedText [("before ".data, 0), (" between ".data, 1)] " after".data)
      = restoredText ["<em>x</em>", "<pre>y</pre>"]
          [("before ".data, 0), (" between ".data, 1)] " after".data
    ∧ unhashAux ["<em>x</em>", "<pre>y</pre>"] "no markers here".data
      = "no markers here".data :=
  ⟨(claimC1_hashRoundTrip (mkExtra id) "b" ["<em>x</em>", "<pre>y</pre>"]
      [("before ".data, 0), (" between ".data, 1)] " after".data [] "t"
      (by decide)).2.2.1,
   (claimC1_hashRoundTrip (mkExtra id) "b" ["<em>x</em>", "<pre>y</pre>"]
      [("before ".data, 0), (" between ".data, 1)] " after".data [] "t"
      (by decide)).2.2.2.1 "no markers here".data (by decide)⟩

/-- C1 counterexample: restoration is not idempotent as universally claimed.
Two stored blocks, the first itself a placeholder for the second: a single
restoration of the first placeholder yields the stored fragment verbatim,
but a second restoration rewrites it again. -/
theorem claimC1_not_idempotent :
    unHashExtraBlocks
        { mkExtra id with hashBlocks := ["<p>~X1X</p>", "A"] }
        (unHashExtraBlocks
          { mkExtra id with hashBlocks := ["<p>~X1X</p>", "A"] }
          ((hashExtraBlock (mkExtra id) "<p>~X1X</p>").1))
      ≠ unHashExtraBlocks
          { mkExtra id with hashBlocks := ["<p>~X1X</p>", "A"] }
          ((hashExtraBlock (mkExtra id) "<p>~X1X</p>").1) := by
  decide

/-- C5 (amended).  Restoration of a placeholder whose index was never stored
does not crash, but does not leave the placeholder literal either: the
placeholder is replaced by the stringified JS `undefined`, i.e. the literal
text `"undefined"`. -/
theorem claimC5_outOfRange (blocks : List String) (k : Nat) (a b : List Char)
    (hk : blocks.length ≤ k)
    (ha : cleanAt a ((placeholder k).data ++ b) = true) :
    unhashAux blocks (a ++ (placeholder k).data ++ b)
      = a ++ "undefined".data ++ unhashAux blocks b := by
  rw [List.append_assoc,
    unhashAux_pass blocks a ((placeholder k).data ++ b) (cleanAt_none ha),
    unhashAux_ph blocks k b,
    show unhashRep blocks k = "undefined".data from by
      unfold unhashRep
      rw [List.get?_eq_none.mpr hk]]
  simp [List.append_assoc]

/-- Witness for C5 (amended): an empty store and the placeholder with index
zero embedded in plain text. -/
theorem claimC5_outOfRange_witness :
    unhashAux [] ("x".data ++ (placeholder 0).data ++ "y".data)
      = "x".data ++ "undefined".data ++ unhashAux [] "y".data :=
  claimC5_outOfRange [] 0 "x".data "y".data (by decide) (by decide)

/-- C5 counterexample: the claim as stated is false — the literal
placeholder text is not preserved; it becomes `"undefined"`. -/
theorem claimC5_not_literal :
    unHashExtraBlocks (mkExtra id) "<p>~X0X</p>" = "undefined"
    ∧ ("undefined" : String) ≠ "<p>~X0X</p>" := by
  constructor
  · decide
  · decide

/-! ### C6: fenced code blocks -/

/-- C6.  On the concrete input with highlight.js mode the recognizer stores
exactly the claimed fragment and leaves only the placeholder; in general the
`language-` class prefix is used exactly in a highlighter mode, the bare tag
otherwise, no class is attached for an empty tag, the `prettyprint` class on
`pre` appears exactly in prettify mode, and the body is HTML-escaped with
the ampersand escaped first. -/
theorem claimC6_fencedCode :
    (fencedCodeBlocks { mkExtra id with highlightJs := true }
        "```js\nvar x = 1 < 2;\n```").1 = "<p>~X0X</p>"
    ∧ (fencedCodeBlocks { mkExtra id with highlightJs := true }
        "```js\nvar x = 1 < 2;\n```").2.hashBlocks
      = ["<pre><code class=\"language-js\">var x = 1 &lt; 2;</code></pre>"]
    ∧ (∀ lang code : String, lang ≠ "" →
        fencedHtml false true lang code
          = "<pre><code class=\"language-" ++ lang ++ "\">"
            ++ encodeCode code ++ "</code></pre>")
    ∧ (∀ lang code : String, lang ≠ "" →
        fencedHtml true false lang code
          = "<pre class=\"prettyprint\"><code class=\"language-" ++ lang ++ "\">"
            ++ encodeCode code ++ "</code></pre>")
    ∧ (∀ lang code : String, lang ≠ "" →
        fencedHtml false false lang code
          = "<pre><code class=\"" ++ lang ++ "\">"
            ++ encodeCode code ++ "</code></pre>")
    ∧ (∀ code : String,
        fencedHtml false true "" code
          = "<pre><code>" ++ encodeCode code ++ "</code></pre>")
    ∧ encodeCode "&<>" = "&amp;&lt;&gt;" := by
  refine ⟨by decide, by decide, ?_, ?_, ?_, ?_, by decide⟩
  · intro lang code h
    apply String.ext
    simp [fencedHtml, h, String.data_append]
  · intro lang code h
    apply String.ext
    simp [fencedHtml, h, String.data_append]
  · intro lang code h
    apply String.ext
    simp [fencedHtml, h, String.data_append]
  · intro code
    apply String.ext
    simp [fencedHtml, String.data_append]

/-- Witness for C6's conditional clauses at a concrete language tag. -/
theorem claimC6_fencedCode_witness :
    fencedHtml false true "js" "a"
      = "<pre><code class=\"language-js\">" ++ encodeCode "a" ++ "</code></pre>"
    ∧ fencedHtml false false "js" "a"
      = "<pre><code class=\"js\">" ++ encodeCode "a" ++ "</code></pre>" :=
  ⟨claimC6_fencedCode.2.2.1 "js" "a" (by decide),
   claimC6_fencedCode.2.2.2.2.1 "js" "a" (by decide)⟩

/-! ### C3: tight versus loose definitions -/

/-- C3.  For a definition matched by the `dd` regex (the leading-line
capture is a possibly empty run of newlines): it is rendered loose — first
line re-indented by the marker width, outdented one level, terminated by a
blank line and passed through the host's full document render — exactly
when it is preceded by a blank line (nonempty leading-line capture) or its
body contains a run of two or more consecutive newlines; otherwise it is
rendered tight — trailing whitespace trimmed, outdented, and span-rendered,
i.e. host-rendered then filtered through the inline whitelist. -/
theorem claimC3_ddTightLoose (conv : String → String) (ll ms d : String)
    (hll : ll.data.all (fun c => c = '\n') = true) :
    ((ll ≠ "" ∨ hasSubL "\n\n".data d.data = true) →
      ddReplacement conv ll ms d
        = "\n<dd>\n"
          ++ conv (outdent (⟨List.replicate ms.length ' '⟩ ++ d) ++ "\n\n")
          ++ "\n</dd>\n")
    ∧ ((ll = "" ∧ hasSubL "\n\n".data d.data = false) →
      ddReplacement conv ll ms d
        = "\n<dd>" ++ sanitizeHtml (conv (outdent (rtrim d))) inlineTags
          ++ "</dd>\n") := by
  constructor
  · intro h
    have hcond : (decide (ll ≠ "") || hasSubL "\n\n".data d.data) = true := by
      rcases h with h | h
      · simp [h]
      · simp [h]
    unfold ddReplacement
    rw [if_pos (by simpa using hcond)]
    apply String.ext
    simp [String.data_append]
  · intro ⟨h1, h2⟩
    have hcond : (decide (ll ≠ "") || hasSubL "\n\n".data d.data) = false := by
      simp [h1, h2]
    unfold ddReplacement
    rw [if_neg (by simpa using hcond)]
    rfl

/-- Witness for C3: one loose instance (blank line before) and one tight
instance, with the identity host converter. -/
theorem claimC3_ddTightLoose_witness :
    ddReplacement id "\n" ":   " "body"
      = "\n<dd>\n" ++ id (outdent (⟨List.replicate (":   " : String).length ' '⟩
          ++ "body") ++ "\n\n") ++ "\n</dd>\n"
    ∧ ddReplacement id "" ":   " "body"
      = "\n<dd>" ++ sanitizeHtml (id (outdent (rtrim "body"))) inlineTags
        ++ "</dd>\n" :=
  ⟨(claimC3_ddTightLoose id "\n" ":   " "body" (by decide)).1
      (Or.inl (by decide)),
   (claimC3_ddTightLoose id "" ":   " "body" (by decide)).2
      ⟨rfl, by decide⟩⟩

/-! ### C9: the pre-pass always appends one newline -/

/-- C9.  For every state, transformation list and input, `doConversion`
returns the transformed text plus exactly one newline; in particular, on an
input containing no extension syntax the output is the input plus a
trailing newline — not the input unchanged — both for the default `all`
pipeline and for the full explicit pipeline including definition lists. -/
theorem claimC9_doConversion (e : Extra) (ts : List Transformation)
    (text : String) :
    (doConversion e ts text).1
      = (ts.foldl (fun (acc : String × Extra) tr =>
            applyTransformation acc.2 tr acc.1)
          (processEscapes text, { e with hashBlocks := [] })).1 ++ "\n"
    ∧ (doConversion (mkExtra id) [Transformation.all] "just plain text").1
      = "just plain text" ++ "\n"
    ∧ (doConversion (mkExtra id)
        [Transformation.tables, Transformation.fencedCodeBlocks,
         Transformation.definitionLists] "just plain text").1
      = "just plain text" ++ "\n"
    ∧ (doConversion (mkExtra id) [Transformation.all] "just plain text").1
      ≠ "just plain text" := by
  refine ⟨rfl, by decide, by decide, by decide⟩

/-! ### C8: non-matching input passes through each recognizer -/

theorem splitNl_ne_nil : ∀ l : List Char, splitNlL l ≠ []
  | [] => by simp [splitNlL]
  | c :: cs => by
    simp only [splitNlL]
    by_cases hc : c = '\n'
    · simp [hc]
    · rw [if_neg hc]
      cases h : splitNlL cs <;> simp

theorem joinNl_cons (x : List Char) (r : List (List Char)) (h : r ≠ []) :
    joinNlL (x :: r) = x ++ '\n' :: joinNlL r := by
  match r, h with
  | y :: r', _ => rfl

theorem joinNl_splitNl : ∀ l : List Char, joinNlL (splitNlL l) = l
  | [] => rfl
  | c :: cs => by
    have ih := joinNl_splitNl cs
    simp only [splitNlL]
    by_cases hc : c = '\n'
    · rw [if_pos hc, joinNl_cons [] (splitNlL cs) (splitNl_ne_nil cs), ih, hc]
      rfl
    · rw [if_neg hc]
      cases hsp : splitNlL cs with
      | nil => exact absurd hsp (splitNl_ne_nil cs)
      | cons x xs =>
        cases hxs : xs with
        | nil =>
          rw [hsp, hxs] at ih
          show c :: x = c :: cs
          rw [show joinNlL [x] = x from rfl] at ih
          rw [ih]
        | cons y ys =>
          rw [hxs] at hsp
          rw [joinNl_cons (c :: x) (y :: ys) (by simp)]
          rw [hsp] at ih
          rw [joinNl_cons x (y :: ys) (by simp)] at ih
          rw [List.cons_append, ih]

theorem tablesScan_free (conv : String → String) (cls : String)
    (hdr? sep? : List Char → Option (List Char))
    (bodyLine : List Char → Bool) (blocks : List String) :
    ∀ lines : List (List Char),
      tableMatchFree hdr? sep? bodyLine lines = true →
      tablesScan conv cls hdr? sep? bodyLine blocks lines = (joinNlL lines, blocks)
  | [], _ => rfl
  | [l], _ => rfl
  | l0 :: l1 :: rest, h => by
    have h0 : tryTableAt hdr? sep? bodyLine (l0 :: l1 :: rest) = none := by
      unfold tableMatchFree at h
      rw [List.all_eq_true] at h
      have := h 0 (List.mem_range.mpr (by simp))
      simpa [Option.isNone_iff_eq_none] using this
    have hshift : tableMatchFree hdr? sep? bodyLine (l1 :: rest) = true := by
      unfold tableMatchFree at h ⊢
      rw [List.all_eq_true] at h ⊢
      intro k hk
      have := h (k + 1) (by
        rw [List.mem_range] at hk ⊢
        simpa using Nat.succ_lt_succ (by simpa using hk))
      simpa using this
    rw [tablesScan, h0,
      tablesScan_free conv cls hdr? sep? bodyLine blocks (l1 :: rest) hshift,
      joinNl_cons l0 (l1 :: rest) (by simp)]

theorem fencedScan_free (pretty hjs : Bool) (blocks : List String) :
    ∀ l : List Char,
      (List.range l.length).all (fun k =>
        !(decide (l.get? k = some '\n')) || (tryFenced (l.drop (k + 1))).isNone)
        = true →
      fencedScan pretty hjs blocks l = (l, blocks)
  | [], _ => rfl
  | c :: cs, h => by
    rw [List.all_eq_true] at h
    have hshift : (List.range cs.length).all (fun k =>
        !(decide (cs.get? k = some '\n')) || (tryFenced (cs.drop (k + 1))).isNone)
        = true := by
      rw [List.all_eq_true]
      intro k hk
      have := h (k + 1) (by
        rw [List.mem_range] at hk ⊢
        simp only [List.length_cons]
        omega)
      simpa using this
    have ih := fencedScan_free pretty hjs blocks cs hshift
    by_cases hc : c = '\n'
    · have h0 : tryFenced cs = none := by
        have := h 0 (List.mem_range.mpr (by simp))
        simp [hc] at this
        simpa [Option.isNone_iff_eq_none] using this
      rw [hc, fencedScan]
      simp [h0, ih]
    · rw [fencedScan, if_neg hc, ih]

theorem defListScan_free (conv : String → String) (blocks : List String) :
    ∀ l : List Char, defListMatchFree l = true →
      defListScan conv blocks l = (l, blocks)
  | [], _ => rfl
  | c :: cs, h => by
    unfold defListMatchFree at h
    rw [List.all_eq_true] at h
    have h0 : tryWholeListAt (c :: cs) = none := by
      have := h 0 (List.mem_range.mpr (by simp))
      simpa [Option.isNone_iff_eq_none] using this
    have hshift : defListMatchFree cs = true := by
      unfold defListMatchFree
      rw [List.all_eq_true]
      intro k hk
      have := h (k + 1) (by
        rw [List.mem_range] at hk ⊢
        simp only [List.length_cons]
        omega)
      simpa using this
    rw [defListScan, h0, defListScan_free conv blocks cs hshift]

theorem removeAnchors_addAnchors (text : String)
    (h2 : text.data.head? ≠ some '\x02')
    (h3 : text.data.getLast? ≠ some '\x03') :
    removeAnchors (addAnchors text) = text := by
  have hlast : ('\x02' :: text.data).getLast? ≠ some '\x03' := by
    cases hd : text.data with
    | nil => simp
    | cons a l =>
      rw [List.getLast?_cons_cons]
      rw [hd] at h3
      exact h3
  have hadd : (addAnchors text).data = '\x02' :: (text.data ++ ['\x03']) := by
    unfold addAnchors ensureStx ensureEtx
    rw [if_neg h2, if_neg hlast]
    rfl
  apply String.ext
  unfold removeAnchors
  rw [hadd,
    show dropStx ('\x02' :: (text.data ++ ['\x03'])) = text.data ++ ['\x03'] from by
      unfold dropStx
      simp,
    show dropEtx (text.data ++ ['\x03']) = text.data from by
      unfold dropEtx
      simp [List.getLast?_concat, List.dropLast_concat]]

/-- C8 (amended).  On input where its grammar matches nowhere, each
recognizer is the identity — for `definitionLists` under the additional
boundary condition that the input does not begin with the STX sentinel nor
end with the ETX sentinel (such sentinels are stripped, see the
counterexample) — and none of them touches the store.  Totality holds by
construction: each recognizer is a function returning a string. -/
theorem claimC8_nonMatchIdentity (e : Extra) (text : String)
    (hLP : tableMatchFree headerLP? sepLP? bodyLineLP (splitNlL text.data) = true)
    (hNP : tableMatchFree headerNP? sepNP? bodyLineNP (splitNlL text.data) = true)
    (hF : fencedMatchFree text.data = true)
    (hD : defListMatchFree (addAnchors text).data = true)
    (hB1 : text.data.head? ≠ some '\x02')
    (hB2 : text.data.getLast? ≠ some '\x03') :
    tables e text = (text, e)
    ∧ fencedCodeBlocks e text = (text, e)
    ∧ definitionLists e text = (text, e) := by
  refine ⟨?_, ?_, ?_⟩
  · unfold tables
    rw [tablesScan_free e.converter e.tableClass headerLP? sepLP? bodyLineLP
      e.hashBlocks (splitNlL text.data) hLP]
    simp only [joinNl_splitNl]
    rw [tablesScan_free e.converter e.tableClass headerNP? sepNP? bodyLineNP
      e.hashBlocks (splitNlL text.data) hNP]
    simp [joinNl_splitNl]
  · unfold fencedCodeBlocks
    unfold fencedMatchFree at hF
    rw [Bool.and_eq_true] at hF
    rw [show tryFenced text.data = none from by
      simpa [Option.isNone_iff_eq_none] using hF.1]
    rw [fencedScan_free e.googleCodePrettify e.highlightJs e.hashBlocks
      text.data hF.2]
  · unfold definitionLists
    rw [defListScan_free e.converter e.hashBlocks (addAnchors text).data hD]
    simp only
    rw [show (⟨(addAnchors text).data⟩ : String) = addAnchors text from rfl,
      removeAnchors_addAnchors text hB1 hB2]

/-- Witness for C8 (amended) on plain prose input. -/
theorem claimC8_nonMatchIdentity_witness :
    tables (mkExtra id) "hello world" = ("hello world", mkExtra id)
    ∧ fencedCodeBlocks (mkExtra id) "hello world" = ("hello world", mkExtra id)
    ∧ definitionLists (mkExtra id) "hello world" = ("hello world", mkExtra id) :=
  claimC8_nonMatchIdentity (mkExtra id) "hello world"
    (by decide) (by decide) (by decide) (by decide) (by decide) (by decide)

/-- C8 counterexample: `definitionLists` is not the identity on every
non-matching input — an input beginning with the STX sentinel character has
that character stripped even though the grammar matches nowhere. -/
theorem claimC8_sentinelStripped :
    defListMatchFree (addAnchors "\x02a").data = true
    ∧ (definitionLists (mkExtra id) "\x02a").1 = "a"
    ∧ ("a" : String) ≠ "\x02a" :=
  ⟨by decide, by decide, by decide⟩

end MarkdownExtra
